import Mathlib

/-!
# Verification of `mlengine_prediction_summary.py`

Shallow embedding of the Dataflow prediction-summary template
(`airflow/providers/google/cloud/utils/mlengine_prediction_summary.py`)
and proofs about its aggregation pipeline.

The pipeline is
`ApplyMetricFnPerInstance >> PairWith1 >> SumTuple >> AverageAndMakeDict`:
a user metric function is applied per record, each metric tuple gets a
trailing `1`, the tuples are summed elementwise by
`beam.CombineGlobally(TupleCombineFn(*([sum] * (len(metric_keys) + 1))))`,
and the final tuple is turned into a Python dict of averages plus a
`"count"` entry.

Numeric values are modelled by an arbitrary `DivisionRing` with decidable
equality (instantiated at `ℚ` for exact finite computations and at `ℝ`
when the documented metric function's `math.log`/`math.exp` are needed);
Python's exception behaviour is modelled with `Except`:
`x / y` raises `ZeroDivisionError` when `y == 0`, `t[i]` raises
`IndexError` out of range, and a missing dict key raises `KeyError`.
-/

/-- Python exceptions that the modelled code can raise. -/
inductive PyErr : Type where
  | keyError (k : String)
  | valueError (msg : String)
  | zeroDivisionError
  | indexError
  deriving DecidableEq, Repr

/-- `"PairWith1" >> beam.Map(lambda tup: tup + (1,))`: append a unit count. -/
def pairWith1 {α : Type} [One α] (tup : List α) : List α :=
  tup ++ [1]

/-- Elementwise addition of two tuples: how two `TupleCombineFn` partial
accumulators (one `sum` combiner per position) merge.  Like Python's `zip`,
`List.zipWith` truncates to the shorter operand; on the arity-respecting
inputs the pipeline feeds it, both operands have length `n + 1`. -/
def addTuple {α : Type} [Add α] (a b : List α) : List α :=
  List.zipWith (· + ·) a b

/-- The all-zero tuple of arity `n`: the accumulator each position's `sum`
combiner starts from (`sum([]) == 0`). -/
def zeros (α : Type) [Zero α] (n : ℕ) : List α :=
  List.replicate n 0

/-- `"SumTuple" >> beam.CombineGlobally(TupleCombineFn(*([sum] * n)))`:
reduce a finite collection of tuples to their elementwise sum, starting
from the all-zero accumulator (which is also the global combine's default
output on an empty collection). -/
def combineGlobally {α : Type} [Zero α] [Add α] (n : ℕ) (l : List (List α)) : List α :=
  l.foldl addTuple (zeros α n)

/-- Python `tup[i]` for `i ≥ 0`: `IndexError` when out of range. -/
def pyIndex {α : Type} (tup : List α) (i : ℕ) : Except PyErr α :=
  match tup[i]? with
  | some v => Except.ok v
  | none => Except.error PyErr.indexError

/-- Python `tup[-1]`: the last element, `IndexError` on an empty tuple. -/
def pyLast {α : Type} (tup : List α) : Except PyErr α :=
  match tup.getLast? with
  | some v => Except.ok v
  | none => Except.error PyErr.indexError

/-- Python division: `ZeroDivisionError` when the denominator is zero. -/
def pyDiv {α : Type} [DivisionRing α] [DecidableEq α] (a b : α) : Except PyErr α :=
  if b = 0 then Except.error PyErr.zeroDivisionError else Except.ok (a / b)

/-- The list comprehension
`[(name, tup[i] / tup[-1]) for i, name in enumerate(metric_keys)]`,
evaluated left to right with Python's exception semantics. -/
def avgEntries {α : Type} [DivisionRing α] [DecidableEq α]
    (tup : List α) : ℕ → List String → Except PyErr (List (String × α))
  | _, [] => Except.ok []
  | i, name :: rest => do
    let x ← pyIndex tup i
    let d ← pyLast tup
    let q ← pyDiv x d
    let tl ← avgEntries tup (i + 1) rest
    Except.ok ((name, q) :: tl)

/-- `"AverageAndMakeDict" >> beam.Map(lambda tup: dict([...] + [("count", tup[-1])]))`:
the pair list handed to `dict(...)`, in construction order. -/
def averageAndMakeDict {α : Type} [DivisionRing α] [DecidableEq α]
    (metric_keys : List String) (tup : List α) : Except PyErr (List (String × α)) := do
  let entries ← avgEntries tup 0 metric_keys
  let c ← pyLast tup
  Except.ok (entries ++ [("count", c)])

/-- Lookup in the Python dict built by `dict(pairs)`: later pairs overwrite
earlier ones with the same key, so lookup finds the last matching pair. -/
def dictGet {α : Type} (pairs : List (String × α)) (k : String) : Option α :=
  pairs.reverse.lookup k

/-- The whole `MakeSummary` PTransform on a finite input collection.
`f` is the (possibly raising) user metric function; a raise in any stage
fails the pipeline. -/
def makeSummary {R α : Type} [DivisionRing α] [DecidableEq α]
    (f : R → Except PyErr (List α)) (metric_keys : List String)
    (records : List R) : Except PyErr (List (String × α)) := do
  let tuples ← records.mapM f
  let augmented := tuples.map pairWith1
  let agg := combineGlobally (metric_keys.length + 1) augmented
  averageAndMakeDict metric_keys agg

/-- A shape of tree reduction: leaves hold input tuples, inner nodes merge
the partial aggregates of their two subtrees, as the execution engine does
when it combines worker sub-aggregates hierarchically. -/
inductive CombineTree (α : Type) : Type where
  | leaf (t : List α)
  | node (l r : CombineTree α)

/-- The input tuples of a combine tree, left to right. -/
def CombineTree.toList {α : Type} : CombineTree α → List (List α)
  | leaf t => [t]
  | node l r => l.toList ++ r.toList

/-- Reduce a combine tree: each inner node merges its subtrees' partial
aggregates with the combiner's pairwise merge (`addTuple`). -/
def CombineTree.reduce {α : Type} [Add α] : CombineTree α → List α
  | leaf t => t
  | node l r => addTuple l.reduce r.reduce

/-- Python's `str.split` with a one-character separator, on the underlying
character list: splitting an empty string gives `[[]]` (one empty field),
and every separator occurrence starts a new field. -/
def splitChar (sep : Char) : List Char → List (List Char)
  | [] => [[]]
  | c :: cs =>
    match splitChar sep cs with
    | [] => [[]]
    | g :: gs => if c = sep then [] :: g :: gs else (c :: g) :: gs

/-- `known_args.metric_keys.split(",")`: Python's comma split of the raw
`--metric_keys` argument. -/
def splitCommas (s : String) : List String :=
  (splitChar ',' s.data).map List.asString

/-- The startup and pipeline stages of `run(argv)` that the claims are
about: `dill.loads` hands back either a callable metric function
(`some f`) or a non-callable object (`none`, rejected with `ValueError`);
`metric_keys` is the raw `--metric_keys` string, split on `","` with no
further validation; the summary is computed over the input records. -/
def runJob {R α : Type} [DivisionRing α] [DecidableEq α]
    (decoded_metric_fn : Option (R → Except PyErr (List α)))
    (metric_keys_arg : String) (records : List R) :
    Except PyErr (List (String × α)) :=
  match decoded_metric_fn with
  | none => Except.error (PyErr.valueError "--metric_fn_encoded must be an encoded callable.")
  | some f => makeSummary f (splitCommas metric_keys_arg) records

/-! ## The documented example: records and metric function -/

/-- A JSON-like Python value inside a decoded prediction record.  Numbers
are modelled as exact reals: Python floats are IEEE doubles, and exact
real arithmetic is the idealised semantics of the docstring's formulas. -/
inductive PyVal : Type where
  | num (x : ℝ)
  | str (s : String)
  | arr (elems : List PyVal)

/-- A decoded prediction record: a Python dict with string keys. -/
def PyRecord : Type := List (String × PyVal)

/-- Python `inst[key]` on a dict: `KeyError` when the key is absent. -/
def pyGetItem (inst : PyRecord) (k : String) : Except PyErr PyVal :=
  match dictGet inst k with
  | some v => Except.ok v
  | none => Except.error (PyErr.keyError k)

/-- Python `float(v)`, for the values the documented metric function
feeds it: a number converts to itself, anything else raises. -/
def pyFloat : PyVal → Except PyErr ℝ
  | PyVal.num x => Except.ok x
  | _ => Except.error (PyErr.valueError "could not convert to float")

/-- Python `v[i]` on a list value. -/
def pyValIndex (v : PyVal) (i : ℕ) : Except PyErr PyVal :=
  match v with
  | PyVal.arr l =>
    match l[i]? with
    | some x => Except.ok x
    | none => Except.error PyErr.indexError
  | _ => Except.error (PyErr.valueError "not subscriptable")

/-- The metric function of the module docstring:

```
label = float(inst["input_label"])
classes = float(inst["classes"])
prediction = float(inst["scores"][1])
log_loss = math.log(1 + math.exp(
    -(label * 2 - 1) * math.log(prediction / (1 - prediction))))
squared_err = (classes - label) ** 2
return (log_loss, squared_err)
```

with `math.log` and `math.exp` read as `Real.log` and `Real.exp`. -/
noncomputable def metricFnDoc (inst : PyRecord) : Except PyErr (List ℝ) := do
  let lv ← pyGetItem inst "input_label"
  let label ← pyFloat lv
  let cv ← pyGetItem inst "classes"
  let classes ← pyFloat cv
  let sv ← pyGetItem inst "scores"
  let pv ← pyValIndex sv 1
  let prediction ← pyFloat pv
  Except.ok
    [Real.log (1 + Real.exp (-(label * 2 - 1) * Real.log (prediction / (1 - prediction)))),
     (classes - label) ^ 2]

/-- The four example input records of the docstring's end-to-end scenario,
exactly as listed there: `classes` and `scores` only. -/
noncomputable def exampleRecords : List PyRecord :=
  [[("classes", PyVal.num 1), ("scores", PyVal.arr [PyVal.num 0.1, PyVal.num 0.9])],
   [("classes", PyVal.num 0), ("scores", PyVal.arr [PyVal.num 0.7, PyVal.num 0.3])],
   [("classes", PyVal.num 0), ("scores", PyVal.arr [PyVal.num 0.6, PyVal.num 0.4])],
   [("classes", PyVal.num 1), ("scores", PyVal.arr [PyVal.num 0.2, PyVal.num 0.8])]]

/-- The same four records with the `input_label` field the documented
metric function reads, set to the leading label of each line's `inputs`
field in the documented input file (`"1,x,y,z"`, `"0,o,m,g"`,
`"1,o,m,w"`, `"1,b,r,b"`: labels 1, 0, 1, 1). -/
noncomputable def labelledRecords : List PyRecord :=
  [[("input_label", PyVal.num 1), ("classes", PyVal.num 1),
    ("scores", PyVal.arr [PyVal.num 0.1, PyVal.num 0.9])],
   [("input_label", PyVal.num 0), ("classes", PyVal.num 0),
    ("scores", PyVal.arr [PyVal.num 0.7, PyVal.num 0.3])],
   [("input_label", PyVal.num 1), ("classes", PyVal.num 0),
    ("scores", PyVal.arr [PyVal.num 0.6, PyVal.num 0.4])],
   [("input_label", PyVal.num 1), ("classes", PyVal.num 1),
    ("scores", PyVal.arr [PyVal.num 0.2, PyVal.num 0.8])]]

/-- The summary the docstring (and the spec's end-to-end scenario) claims
for these records. -/
noncomputable def claimedDocSummary : List (String × ℝ) :=
  [("log_loss", 0.43890510565304547), ("count", 4), ("mse", 0.25)]

/-! ## JsonCoder: the JSON value domain, `json.dumps` and `json.loads`

`JsonCoder.encode` is `json.dumps(x).encode()` and `JsonCoder.decode` is
`json.loads(x)`; both delegate to Python's `json` module (standard
library, not part of this repository), modelled here on the JSON value
domain.  Numbers are modelled as arbitrary-precision integers: Python
ints round-trip exactly through JSON text, while floats are IEEE doubles
whose shortest-repr round-trip is a property of the float type, outside
this embedding.  String escaping models the quote and backslash escapes;
`json.dumps` additionally escapes control and non-ASCII characters, which
the decoder here accepts in literal form, so the round-trip domain is
unchanged. -/

/-- A JSON value as carried by `JsonCoder`: `null`, booleans, integers,
non-integer numbers (Python floats, carried exactly as the finite
decimal `m / 10 ^ (e + 1)` that `repr` prints and `json.loads` reads
back — e.g. the records' scores `0.1` is `dec 1 0`), strings, arrays,
and string-keyed objects (Python dicts, in insertion order). -/
inductive Json : Type where
  | null
  | bool (b : Bool)
  | int (n : ℤ)
  | dec (m : ℤ) (e : ℕ)
  | str (s : String)
  | arr (elems : List Json)
  | obj (members : List (String × Json))

/-- Escaping of one string character as `json.dumps` does for the quote
and the backslash; every other character is emitted literally. -/
def escapeChar (c : Char) : List Char :=
  if c = '"' ∨ c = '\\' then ['\\', c] else [c]

/-- Escape a whole string body. -/
def escapeChars : List Char → List Char
  | [] => []
  | c :: cs => escapeChar c ++ escapeChars cs

/-- Decimal digits of a natural number, most significant first. -/
def encodeNat (n : ℕ) : List Char :=
  if _h : n < 10 then [Nat.digitChar n]
  else encodeNat (n / 10) ++ [Nat.digitChar (n % 10)]
  decreasing_by exact Nat.div_lt_self (by omega) (by omega)

/-- Decimal rendering of an integer, as `json.dumps` prints Python ints. -/
def encodeInt : ℤ → List Char
  | Int.ofNat n => encodeNat n
  | Int.negSucc m => '-' :: encodeNat (m + 1)

/-- Exactly `w` decimal digits of `n`, most significant first, leading
zeros kept: the fixed-width fraction part of a decimal number. -/
def encodeDigits : ℕ → ℕ → List Char
  | 0, _ => []
  | w + 1, n => encodeDigits w (n / 10) ++ [Nat.digitChar (n % 10)]

/-- Decimal rendering of the non-integer number `m / 10 ^ (e + 1)`, as
`json.dumps` prints a Python float's `repr`: an optional sign, the
integer part, a point, and exactly `e + 1` fraction digits. -/
def encodeDec (m : ℤ) (e : ℕ) : List Char :=
  (if m < 0 then ['-'] else [])
    ++ (encodeNat (m.natAbs / 10 ^ (e + 1))
      ++ '.' :: encodeDigits (e + 1) (m.natAbs % 10 ^ (e + 1)))

mutual

/-- `json.dumps` with its default separators `", "` and `": "`, as a
character list. -/
def Json.encode : Json → List Char
  | .int n => encodeInt n
  | .dec m e => encodeDec m e
  | .str s => '"' :: (escapeChars s.data ++ ['"'])
  | .arr [] => ['[', ']']
  | .arr (x :: xs) => '[' :: (Json.encode x ++ encodeItems xs ++ [']'])
  | .obj [] => ['\x7b', '\x7d']
  | .obj (m :: ms) => '\x7b' :: (encodeMember m ++ encodeMembers ms ++ ['\x7d'])
  | .bool b => cond b ('t' :: ['r', 'u', 'e']) ('f' :: ['a', 'l', 's', 'e'])
  | .null => 'n' :: ['u', 'l', 'l']

/-- The remaining array elements, each preceded by `", "`. -/
def encodeItems : List Json → List Char
  | [] => []
  | x :: xs => ',' :: ' ' :: (Json.encode x ++ encodeItems xs)

/-- One object member: quoted key, `": "`, value. -/
def encodeMember : String × Json → List Char
  | (k, v) => '"' :: (escapeChars k.data ++ ['"', ':', ' '] ++ Json.encode v)

/-- The remaining object members, each preceded by `", "`. -/
def encodeMembers : List (String × Json) → List Char
  | [] => []
  | m :: ms => ',' :: ' ' :: (encodeMember m ++ encodeMembers ms)

end

/-- Parse a string body up to the closing quote, undoing the escapes. -/
def parseStrAux : List Char → Option (List Char × List Char)
  | [] => none
  | c :: rest =>
    if c = '"' then some ([], rest)
    else if c = '\\' then
      match rest with
      | [] => none
      | d :: rest2 => (parseStrAux rest2).map fun p => (d :: p.1, p.2)
    else (parseStrAux rest).map fun p => (c :: p.1, p.2)

/-- Parse a maximal run of decimal digits. -/
def parseNatNum (cs : List Char) : Option (ℕ × List Char) :=
  if (cs.takeWhile Char.isDigit) = [] then none
  else some ((cs.takeWhile Char.isDigit).foldl (fun a c => 10 * a + (c.toNat - 48)) 0,
    cs.dropWhile Char.isDigit)

/-- Numeric value of a run of decimal digits, most significant first. -/
def digitsVal (ds : List Char) : ℕ :=
  ds.foldl (fun a c => 10 * a + (c.toNat - 48)) 0

/-- Reattach an optional leading minus sign to a parsed magnitude. -/
def signedVal (neg : Bool) (a : ℕ) : ℤ :=
  if neg then -(a : ℤ) else (a : ℤ)

/-- After a point following the integer part `a`: with at least one
fraction digit the number is the decimal they spell, otherwise the
point is left unconsumed and the number is the integer alone. -/
def fracResult (neg : Bool) (a : ℕ) (rest2 : List Char) : Option (Json × List Char) :=
  if rest2.takeWhile Char.isDigit = [] then some (.int (signedVal neg a), '.' :: rest2)
  else some
    (.dec (signedVal neg (a * 10 ^ (rest2.takeWhile Char.isDigit).length
        + digitsVal (rest2.takeWhile Char.isDigit)))
      ((rest2.takeWhile Char.isDigit).length - 1),
      rest2.dropWhile Char.isDigit)

/-- A number after its optional sign: the integer digits and then, if a
point follows, the fraction — a fraction makes a `dec`, none an `int`,
as `json.loads` distinguishes floats from ints. -/
def parseNumBody (neg : Bool) (cs : List Char) : Option (Json × List Char) :=
  match parseNatNum cs with
  | none => none
  | some (a, '.' :: rest2) => fracResult neg a rest2
  | some (a, rest) => some (.int (signedVal neg a), rest)

/-- `json.loads` on a number token: an optional `-`, then the body. -/
def parseNumber : List Char → Option (Json × List Char)
  | '-' :: cs => parseNumBody true cs
  | cs => parseNumBody false cs

/-- Character-class test for sizes of the fuel-indexed parser: `rest`
begins with neither a decimal digit nor a point (so a preceding number
is read maximally, fraction included). -/
def restOk : List Char → Prop
  | [] => True
  | c :: _ => ¬ c.isDigit ∧ c ≠ '.'

mutual

/-- Fuel-indexed recursive-descent parser for one JSON value, accepting
exactly the shape `Json.encode` emits. -/
def parseVal : ℕ → List Char → Option (Json × List Char)
  | 0, _ => none
  | fuel + 1, cs =>
    match cs with
    | [] => none
    | c :: rest =>
      if c = 'n' then
        match rest with
        | 'u' :: 'l' :: 'l' :: rest2 => some (.null, rest2)
        | _ => none
      else if c = 't' then
        match rest with
        | 'r' :: 'u' :: 'e' :: rest2 => some (.bool true, rest2)
        | _ => none
      else if c = 'f' then
        match rest with
        | 'a' :: 'l' :: 's' :: 'e' :: rest2 => some (.bool false, rest2)
        | _ => none
      else if c = '"' then
        (parseStrAux rest).map fun p => (.str (String.mk p.1), p.2)
      else if c = '[' then
        if rest.head? = some ']' then some (.arr [], rest.tail)
        else (parseItems fuel rest).map fun p => (.arr p.1, p.2)
      else if c = '\x7b' then
        if rest.head? = some '\x7d' then some (.obj [], rest.tail)
        else (parseMembers fuel rest).map fun p => (.obj p.1, p.2)
      else parseNumber cs

/-- Parse the nonempty element list of an array, after the opening `[`. -/
def parseItems : ℕ → List Char → Option (List Json × List Char)
  | 0, _ => none
  | fuel + 1, cs => do
    let (v, rest) ← parseVal fuel cs
    match rest with
    | ']' :: rest2 => some ([v], rest2)
    | ',' :: ' ' :: rest2 => do
      let (vs, rest3) ← parseItems fuel rest2
      some (v :: vs, rest3)
    | _ => none

/-- Parse the nonempty member list of an object, after the opening brace.
-/
def parseMembers : ℕ → List Char → Option (List (String × Json) × List Char)
  | 0, _ => none
  | fuel + 1, cs =>
    match cs with
    | '"' :: rest => do
      let (k, rest2) ← parseStrAux rest
      match rest2 with
      | ':' :: ' ' :: rest3 => do
        let (v, rest4) ← parseVal fuel rest3
        match rest4 with
        | '\x7d' :: rest5 => some ([(String.mk k, v)], rest5)
        | ',' :: ' ' :: rest5 => do
          let (ms, rest6) ← parseMembers fuel rest5
          some ((String.mk k, v) :: ms, rest6)
        | _ => none
      | _ => none
    | _ => none

end

mutual

/-- Structural size of a JSON value, used as parser fuel. -/
def Json.size : Json → ℕ
  | .null | .bool _ | .int _ | .dec _ _ | .str _ => 1
  | .arr elems => sizeItems elems + 1
  | .obj members => sizeMembers members + 1

/-- Combined size of array elements. -/
def sizeItems : List Json → ℕ
  | [] => 0
  | v :: vs => v.size + sizeItems vs + 1

/-- Combined size of object members. -/
def sizeMembers : List (String × Json) → ℕ
  | [] => 0
  | m :: ms => m.2.size + sizeMembers ms + 1

end

/-- `JsonCoder.encode`: `json.dumps(x).encode()` — the serialized JSON
text (UTF-8 bytes modelled as the string itself). -/
def jsonCoderEncode (x : Json) : String :=
  String.mk x.encode

/-- `JsonCoder.decode`: `json.loads(x)` — parse one complete JSON value
from the whole input, `none` on malformed input. -/
def jsonCoderDecode (s : String) : Option Json :=
  match parseVal (s.data.length + 1) s.data with
  | some (v, []) => some v
  | _ => none

/-! ## Algebra of the tuple combiner -/

theorem addTuple_comm {α : Type} [AddCommMonoid α] (a b : List α) :
    addTuple a b = addTuple b a :=
  List.zipWith_comm_of_comm _ add_comm a b

theorem addTuple_assoc {α : Type} [AddCommMonoid α] :
    ∀ a b c : List α, addTuple (addTuple a b) c = addTuple a (addTuple b c) := by
  intro a
  induction a with
  | nil => intro b c; simp [addTuple]
  | cons x xs ih =>
    intro b c
    cases b with
    | nil => simp [addTuple]
    | cons y ys =>
      cases c with
      | nil => simp [addTuple]
      | cons z zs =>
        have h := ih ys zs
        simp only [addTuple, List.zipWith_cons_cons] at h ⊢
        rw [add_assoc, h]

theorem addTuple_right_comm {α : Type} [AddCommMonoid α] (z x y : List α) :
    addTuple (addTuple z x) y = addTuple (addTuple z y) x := by
  rw [addTuple_assoc, addTuple_assoc, addTuple_comm x y]

theorem addTuple_length {α : Type} [Add α] (a b : List α) :
    (addTuple a b).length = min a.length b.length := by
  simp [addTuple]

theorem zeros_length {α : Type} [Zero α] (n : ℕ) : (zeros α n).length = n := by
  simp [zeros]

theorem addTuple_zeros_left {α : Type} [AddMonoid α] :
    ∀ (t : List α) (n : ℕ), t.length = n → addTuple (zeros α n) t = t := by
  intro t
  induction t with
  | nil => intro n h; simp [addTuple]
  | cons x xs ih =>
    intro n h
    cases n with
    | zero => simp at h
    | succ m =>
      have hm : xs.length = m := by simpa using h
      simp only [zeros, List.replicate_succ, addTuple, List.zipWith_cons_cons, zero_add]
      exact congrArg (x :: ·) (ih m hm)

theorem addTuple_zeros_right {α : Type} [AddCommMonoid α] (t : List α) (n : ℕ)
    (h : t.length = n) : addTuple t (zeros α n) = t := by
  rw [addTuple_comm]; exact addTuple_zeros_left t n h

theorem combineGlobally_nil {α : Type} [Zero α] [Add α] (n : ℕ) :
    combineGlobally (α := α) n [] = zeros α n := rfl

theorem combineGlobally_length {α : Type} [AddCommMonoid α] (n : ℕ) :
    ∀ l : List (List α), (∀ t ∈ l, t.length = n) → (combineGlobally n l).length = n := by
  have key : ∀ (l : List (List α)) (a : List α), a.length = n → (∀ t ∈ l, t.length = n) →
      (l.foldl addTuple a).length = n := by
    intro l
    induction l with
    | nil => intro a ha _; simpa using ha
    | cons t ts ih =>
      intro a ha hl
      have ht : t.length = n := hl t (by simp)
      have : (addTuple a t).length = n := by
        rw [addTuple_length, ha, ht, min_self]
      exact ih (addTuple a t) this (fun u hu => hl u (by simp [hu]))
  intro l hl
  exact key l (zeros α n) (zeros_length n) hl

theorem combineGlobally_perm {α : Type} [AddCommMonoid α] (n : ℕ)
    {l l' : List (List α)} (p : l.Perm l') :
    combineGlobally n l = combineGlobally n l' :=
  p.foldl_eq' (fun x _ y _ z => addTuple_right_comm z x y) (zeros α n)

theorem foldl_addTuple_eq {α : Type} [AddCommMonoid α] (n : ℕ) :
    ∀ (l : List (List α)) (a : List α), a.length = n → (∀ t ∈ l, t.length = n) →
      l.foldl addTuple a = addTuple a (combineGlobally n l) := by
  intro l
  induction l with
  | nil =>
    intro a ha _
    simp [combineGlobally_nil, addTuple_zeros_right a n ha]
  | cons t ts ih =>
    intro a ha hl
    have ht : t.length = n := hl t (by simp)
    have hts : ∀ u ∈ ts, u.length = n := fun u hu => hl u (by simp [hu])
    have hat : (addTuple a t).length = n := by
      rw [addTuple_length, ha, ht, min_self]
    calc (t :: ts).foldl addTuple a
        = ts.foldl addTuple (addTuple a t) := rfl
      _ = addTuple (addTuple a t) (combineGlobally n ts) := ih (addTuple a t) hat hts
      _ = addTuple a (addTuple t (combineGlobally n ts)) := addTuple_assoc a t _
      _ = addTuple a (combineGlobally n (t :: ts)) := by
          have : combineGlobally n (t :: ts)
              = ts.foldl addTuple (addTuple (zeros α n) t) := rfl
          rw [this, addTuple_zeros_left t n ht,
            ih t ht hts]

theorem combineGlobally_append {α : Type} [AddCommMonoid α] (n : ℕ)
    (l₁ l₂ : List (List α)) (h₁ : ∀ t ∈ l₁, t.length = n) (h₂ : ∀ t ∈ l₂, t.length = n) :
    combineGlobally n (l₁ ++ l₂) = addTuple (combineGlobally n l₁) (combineGlobally n l₂) := by
  have hc : (combineGlobally n l₁).length = n := combineGlobally_length n l₁ h₁
  calc combineGlobally n (l₁ ++ l₂)
      = l₂.foldl addTuple (combineGlobally n l₁) := by
        simp [combineGlobally, List.foldl_append]
    _ = addTuple (combineGlobally n l₁) (combineGlobally n l₂) :=
        foldl_addTuple_eq n l₂ _ hc h₂

theorem combineGlobally_map_combine {α : Type} [AddCommMonoid α] (n : ℕ) :
    ∀ groups : List (List (List α)), (∀ g ∈ groups, ∀ t ∈ g, t.length = n) →
      combineGlobally n (groups.map (combineGlobally n)) = combineGlobally n groups.flatten := by
  intro groups
  induction groups with
  | nil => intro _; simp
  | cons g gs ih =>
    intro h
    have hg : ∀ t ∈ g, t.length = n := h g (by simp)
    have hgs : ∀ g' ∈ gs, ∀ t ∈ g', t.length = n := fun g' hg' => h g' (by simp [hg'])
    have hjoin : ∀ t ∈ gs.flatten, t.length = n := by
      intro t ht
      rcases List.mem_flatten.mp ht with ⟨g', hg', htg⟩
      exact hgs g' hg' t htg
    have hmap : ∀ t ∈ gs.map (combineGlobally n), t.length = n := by
      intro t ht
      rcases List.mem_map.mp ht with ⟨g', hg', rfl⟩
      exact combineGlobally_length n g' (hgs g' hg')
    have hclen : (combineGlobally n g).length = n := combineGlobally_length n g hg
    calc combineGlobally n ((g :: gs).map (combineGlobally n))
        = combineGlobally n ([combineGlobally n g] ++ gs.map (combineGlobally n)) := by simp
      _ = addTuple (combineGlobally n [combineGlobally n g])
            (combineGlobally n (gs.map (combineGlobally n))) := by
          refine combineGlobally_append n _ _ ?_ hmap
          intro t ht
          simp only [List.mem_singleton] at ht
          subst ht; exact hclen
      _ = addTuple (combineGlobally n g) (combineGlobally n gs.flatten) := by
          rw [ih hgs]
          have : combineGlobally n [combineGlobally n g]
              = addTuple (zeros α n) (combineGlobally n g) := rfl
          rw [this, addTuple_zeros_left _ n hclen]
      _ = combineGlobally n ([g] ++ gs).flatten := by
          rw [← combineGlobally_append n g gs.flatten hg hjoin]
          simp
      _ = combineGlobally n (g :: gs).flatten := by simp

theorem combineTree_reduce_eq {α : Type} [AddCommMonoid α] (n : ℕ) :
    ∀ tr : CombineTree α, (∀ t ∈ tr.toList, t.length = n) →
      tr.reduce = combineGlobally n tr.toList := by
  intro tr
  induction tr with
  | leaf t =>
    intro h
    have ht : t.length = n := h t (by simp [CombineTree.toList])
    have : combineGlobally n [t] = addTuple (zeros α n) t := rfl
    simp [CombineTree.reduce, CombineTree.toList, this, addTuple_zeros_left t n ht]
  | node l r ihl ihr =>
    intro h
    have hl : ∀ t ∈ l.toList, t.length = n := by
      intro t ht; exact h t (by simp [CombineTree.toList, ht])
    have hr : ∀ t ∈ r.toList, t.length = n := by
      intro t ht; exact h t (by simp [CombineTree.toList, ht])
    simp only [CombineTree.reduce, CombineTree.toList]
    rw [ihl hl, ihr hr, combineGlobally_append n _ _ hl hr]

/-! ## Claim theorems: combiner algebra -/

/-- **C1**: combining a finite multiset of AugmentedTuples (each of arity
`n`, in the pipeline `n = N + 1`) with the global combiner is invariant
under reordering, under partitioning into `k ≥ 1` groups that are combined
independently and then merged, and under tree-shaped reduction: all agree
with combining the whole multiset in one flat pass of elementwise
addition. -/
theorem combiner_order_partition_tree_invariant (n : ℕ) :
    (∀ l l' : List (List ℚ), l.Perm l' → combineGlobally n l = combineGlobally n l')
  ∧ (∀ groups : List (List (List ℚ)), 1 ≤ groups.length →
      (∀ g ∈ groups, ∀ t ∈ g, t.length = n) →
      combineGlobally n (groups.map (combineGlobally n)) = combineGlobally n groups.flatten)
  ∧ (∀ tr : CombineTree ℚ, (∀ t ∈ tr.toList, t.length = n) →
      tr.reduce = combineGlobally n tr.toList) :=
  ⟨fun _ _ p => combineGlobally_perm n p,
   fun groups _ h => combineGlobally_map_combine n groups h,
   fun tr h => combineTree_reduce_eq n tr h⟩

/-- Witness for C1: reordering, a 2-group partition, and a 2-leaf tree on
concrete arity-2 tuples. -/
theorem combiner_order_partition_tree_invariant_witness :
    combineGlobally 2 [[(1 : ℚ), 2], [3, 4]] = combineGlobally 2 [[(3 : ℚ), 4], [1, 2]]
  ∧ combineGlobally 2 ([[[(1 : ℚ), 2]], [[3, 4]]].map (combineGlobally 2))
      = combineGlobally 2 [[[(1 : ℚ), 2]], [[3, 4]]].flatten
  ∧ (CombineTree.node (CombineTree.leaf [(1 : ℚ), 2]) (CombineTree.leaf [3, 4])).reduce
      = combineGlobally 2
          (CombineTree.node (CombineTree.leaf [(1 : ℚ), 2]) (CombineTree.leaf [3, 4])).toList :=
  ⟨(combiner_order_partition_tree_invariant 2).1 _ _ (List.Perm.swap _ _ _),
   (combiner_order_partition_tree_invariant 2).2.1 _ (by decide) (by decide),
   (combiner_order_partition_tree_invariant 2).2.2 _ (by decide)⟩

/-- **C4**: the combiner's identity element is the all-zero tuple of the
combiner's arity: the empty multiset combines to it, and merging any
aggregate of that arity with it (on either side) leaves the aggregate
unchanged. -/
theorem combiner_identity (n : ℕ) :
    combineGlobally (α := ℚ) n [] = zeros ℚ n
  ∧ ∀ t : List ℚ, t.length = n →
      addTuple t (zeros ℚ n) = t ∧ addTuple (zeros ℚ n) t = t :=
  ⟨combineGlobally_nil n,
   fun t ht => ⟨addTuple_zeros_right t n ht, addTuple_zeros_left t n ht⟩⟩

/-- Witness for C4 at arity 3 with the aggregate `[1, 2, 3]`. -/
theorem combiner_identity_witness :
    combineGlobally (α := ℚ) 3 [] = zeros ℚ 3
  ∧ addTuple [(1 : ℚ), 2, 3] (zeros ℚ 3) = [(1 : ℚ), 2, 3]
  ∧ addTuple (zeros ℚ 3) [(1 : ℚ), 2, 3] = [(1 : ℚ), 2, 3] :=
  ⟨(combiner_identity 3).1,
   ((combiner_identity 3).2 [1, 2, 3] (by decide)).1,
   ((combiner_identity 3).2 [1, 2, 3] (by decide)).2⟩

/-! ## The AverageAndMakeDict stage -/

theorem exceptBind_ok {ε α β : Type} (a : α) (f : α → Except ε β) :
    (Except.ok a : Except ε α) >>= f = f a := rfl

theorem exceptBind_error {ε α β : Type} (e : ε) (f : α → Except ε β) :
    (Except.error e : Except ε α) >>= f = Except.error e := rfl

theorem pyIndex_eq_ok {α : Type} {tup : List α} {i : ℕ} {v : α} (h : tup[i]? = some v) :
    pyIndex tup i = Except.ok v := by
  simp [pyIndex, h]

theorem pyLast_eq_ok {α : Type} {tup : List α} {d : α} (h : tup.getLast? = some d) :
    pyLast tup = Except.ok d := by
  simp [pyLast, h]

theorem pyDiv_eq_ok {α : Type} [DivisionRing α] [DecidableEq α] {a b : α} (h : b ≠ 0) :
    pyDiv a b = Except.ok (a / b) := by
  simp [pyDiv, h]

/-- On an in-bounds index range with a nonzero last element, the
comprehension succeeds and pairs each key with its indexed average. -/
theorem avgEntries_eq {α : Type} [DivisionRing α] [DecidableEq α]
    (tup : List α) (d : α) (hd : tup.getLast? = some d) (hdz : d ≠ 0) :
    ∀ (keys : List String) (i : ℕ), i + keys.length ≤ tup.length →
      avgEntries tup i keys
        = Except.ok ((keys.enumFrom i).map fun p => (p.2, tup.getD p.1 0 / d)) := by
  intro keys
  induction keys with
  | nil => intro i _; simp [avgEntries]
  | cons name rest ih =>
    intro i hle
    have hi : i < tup.length := by
      simp only [List.length_cons] at hle; omega
    have hv : tup[i]? = some (tup.getD i 0) := by
      rw [List.getD_eq_getElem?_getD, List.getElem?_eq_getElem hi]
      rfl
    have hrest := ih (i + 1) (by simp only [List.length_cons] at hle; omega)
    simp only [avgEntries, pyIndex_eq_ok hv, pyLast_eq_ok hd, pyDiv_eq_ok hdz, hrest,
      List.enumFrom_cons, List.map_cons, exceptBind_ok]

/-- Keys occurring in the comprehension's output are exactly the metric keys. -/
theorem mem_enumFrom_snd {β : Type} :
    ∀ (l : List β) (b : ℕ) (p : ℕ × β), p ∈ l.enumFrom b → p.2 ∈ l := by
  intro l
  induction l with
  | nil => intro b p hp; simp [List.enumFrom] at hp
  | cons x xs ih =>
    intro b p hp
    rcases List.mem_cons.mp (by simpa [List.enumFrom_cons] using hp) with h | h
    · subst h; simp
    · exact List.mem_cons_of_mem _ (ih (b + 1) p h)

/-- Looking up a key absent from every pair gives `none`. -/
theorem lookup_none_of_not_mem {β : Type} (s : List (String × β)) (k : String)
    (h : ∀ p ∈ s, p.1 ≠ k) : s.lookup k = none := by
  rw [List.lookup_eq_none_iff]
  intro p hp
  exact bne_iff_ne.mpr fun e => (h p hp) e.symm

/-- Looking up the `i`-th metric key in the reversed comprehension output
(with pairwise-distinct keys) returns that key's average. -/
theorem lookup_reverse_enumFrom {α : Type} (g : ℕ → α) :
    ∀ (keys : List String) (b i : ℕ), i < keys.length → keys.Nodup →
      (((keys.enumFrom b).map fun p => (p.2, g p.1)).reverse).lookup (keys.getD i "")
        = some (g (b + i)) := by
  intro keys
  induction keys with
  | nil => intro b i hi _; simp at hi
  | cons name rest ih =>
    intro b i hi hnd
    rcases List.nodup_cons.mp hnd with ⟨hname, hrest⟩
    cases i with
    | zero =>
      simp only [List.enumFrom_cons, List.map_cons, List.reverse_cons, List.lookup_append,
        List.getD_cons_zero]
      have hnone : ((rest.enumFrom (b + 1)).map fun p => (p.2, g p.1)).reverse.lookup name
          = none := by
        apply lookup_none_of_not_mem
        intro p hp
        rcases List.mem_map.mp (List.mem_reverse.mp hp) with ⟨q, hq, rfl⟩
        exact fun e => hname (e ▸ mem_enumFrom_snd rest (b + 1) q hq)
      simp [hnone, List.lookup_cons]
    | succ j =>
      have hj : j < rest.length := by simpa using hi
      simp only [List.enumFrom_cons, List.map_cons, List.reverse_cons, List.lookup_append,
        List.getD_cons_succ]
      have := ih (b + 1) j hj hrest
      rw [this]
      simp [Nat.add_assoc, Nat.add_comm 1 j]

theorem exceptPure {ε α : Type} (a : α) : (pure a : Except ε α) = Except.ok a := rfl

/-- A lookup other than `"count"` in the final dict skips the trailing
`("count", d)` pair and scans the remaining entries from the right. -/
theorem dictGet_append_count_ne {α : Type} (E : List (String × α)) (d : α) (k : String)
    (hk : k ≠ "count") :
    dictGet (E ++ [("count", d)]) k = E.reverse.lookup k := by
  have hb : (k == "count") = false := beq_eq_false_iff_ne.mpr hk
  simp only [dictGet, List.reverse_append, List.reverse_cons, List.reverse_nil,
    List.nil_append, List.cons_append, List.lookup_cons, hb]

/-- Looking up `"count"` in the final dict always hits the trailing
`("count", d)` pair first (Python dict construction: last pair wins). -/
theorem dictGet_append_count_self {α : Type} (E : List (String × α)) (d : α) :
    dictGet (E ++ [("count", d)]) "count" = some d := by
  simp only [dictGet, List.reverse_append, List.reverse_cons, List.reverse_nil,
    List.nil_append, List.cons_append, List.lookup_cons, beq_self_eq_true]

/-! ## Claim theorem: the Summary Formatter -/

/-- **C2**: given the final AggregateTuple `tup` of arity `N + 1` (its last
element `d` nonzero) and `N` pairwise-distinct metric keys not containing
`"count"`, the produced Summary is exactly the mapping that sends the
`i`-th metric key to `tup[i] / tup[N]` for every `i < N`, sends `"count"`
to `tup[N]`, and contains nothing else. -/
theorem summary_formatter_exact (keys : List String) (tup : List ℚ) (d : ℚ)
    (hlen : tup.length = keys.length + 1) (hd : tup.getLast? = some d) (hdz : d ≠ 0)
    (hnd : keys.Nodup) (hc : "count" ∉ keys) :
    ∃ s, averageAndMakeDict keys tup = Except.ok s
      ∧ dictGet s "count" = some d
      ∧ (∀ i, i < keys.length → dictGet s (keys.getD i "") = some (tup.getD i 0 / d))
      ∧ ∀ k, k ∉ keys → k ≠ "count" → dictGet s k = none := by
  have hE := avgEntries_eq tup d hd hdz keys 0 (by omega)
  refine ⟨((keys.enumFrom 0).map fun p => (p.2, tup.getD p.1 0 / d)) ++ [("count", d)],
    ?_, ?_, ?_, ?_⟩
  · simp only [averageAndMakeDict, hE, pyLast_eq_ok hd, exceptBind_ok]
  · exact dictGet_append_count_self _ d
  · intro i hi
    have hmem : keys.getD i "" ∈ keys := by
      rw [List.getD_eq_getElem _ _ hi]
      exact List.getElem_mem hi
    rw [dictGet_append_count_ne _ _ _ fun e => hc (e ▸ hmem)]
    have hlu := lookup_reverse_enumFrom (fun j => tup.getD j 0 / d) keys 0 i hi hnd
    simpa using hlu
  · intro k hk hkc
    rw [dictGet_append_count_ne _ _ _ hkc]
    apply lookup_none_of_not_mem
    intro p hp
    rcases List.mem_map.mp (List.mem_reverse.mp hp) with ⟨q, hq, rfl⟩
    exact fun e => hk (e ▸ mem_enumFrom_snd keys 0 q hq)

/-- Witness for C2 on the aggregate `[2, 4, 2]` with keys `["a", "b"]`. -/
theorem summary_formatter_exact_witness :
    ∃ s, averageAndMakeDict ["a", "b"] [(2 : ℚ), 4, 2] = Except.ok s
      ∧ dictGet s "count" = some 2 ∧ dictGet s "a" = some 1 ∧ dictGet s "b" = some 2 := by
  obtain ⟨s, hok, hcount, havg, habs⟩ :=
    summary_formatter_exact ["a", "b"] [(2 : ℚ), 4, 2] 2
      (by decide) (by decide) (by decide) (by decide) (by decide)
  refine ⟨s, hok, hcount, ?_, ?_⟩
  · have h := havg 0 (by decide)
    norm_num at h
    simpa using h
  · have h := havg 1 (by decide)
    norm_num at h
    simpa using h

/-! ## The SumTuple aggregate of augmented tuples -/

/-- `records.mapM` of a never-raising metric function is just `map`. -/
theorem mapM_ok {R α : Type} (f : R → List α) :
    ∀ records : List R,
      records.mapM (fun r => (Except.ok (f r) : Except PyErr (List α)))
        = Except.ok (records.map f) := by
  intro records
  induction records with
  | nil => rfl
  | cons r rs ih => rw [List.mapM_cons, ih]; rfl

/-- Concrete evaluation of the whole pipeline: once the aggregate and the
formatter output are computed, so is `MakeSummary`. -/
theorem makeSummary_concrete {R : Type} (f : R → List ℚ) (keys : List String)
    (records : List R) (agg : List ℚ) (out : Except PyErr (List (String × ℚ)))
    (hagg : combineGlobally (keys.length + 1) ((records.map f).map pairWith1) = agg)
    (hout : averageAndMakeDict keys agg = out) :
    makeSummary (fun r => Except.ok (f r)) keys records = out := by
  simp only [makeSummary, mapM_ok f records, exceptBind_ok, hagg, hout]

/-- Position `n` of the running aggregate of `1`-augmented arity-`n` tuples
counts the tuples: each augmented tuple contributes exactly `1` there. -/
theorem foldl_augmented_last {n : ℕ} :
    ∀ (tuples : List (List ℚ)) (a : List ℚ) (c : ℚ),
      (∀ t ∈ tuples, t.length = n) → a.length = n + 1 → a[n]? = some c →
      ((tuples.map pairWith1).foldl addTuple a)[n]? = some (c + tuples.length) := by
  intro tuples
  induction tuples with
  | nil =>
    intro a c _ _ hc
    simpa using hc
  | cons t ts ih =>
    intro a c htl ha hc
    have ht : t.length = n := htl t (by simp)
    have h1 : (pairWith1 t)[n]? = some 1 := by
      rw [pairWith1, ← ht]
      exact List.getElem?_concat_length t 1
    have hlen1 : (pairWith1 t).length = n + 1 := by simp [pairWith1, ht]
    have hstep : (addTuple a (pairWith1 t))[n]? = some (c + 1) := by
      rw [addTuple, List.getElem?_zipWith, hc, h1]
    have hsteplen : (addTuple a (pairWith1 t)).length = n + 1 := by
      rw [addTuple_length, ha, hlen1, min_self]
    have := ih (addTuple a (pairWith1 t)) (c + 1)
      (fun u hu => htl u (by simp [hu])) hsteplen hstep
    rw [List.map_cons, List.foldl_cons, this]
    have : c + 1 + (ts.length : ℚ) = c + ((t :: ts).length : ℚ) := by
      push_cast [List.length_cons]
      ring
    rw [this]

/-- On a nonempty record list whose metric tuples all have the configured
arity, the whole `MakeSummary` pipeline succeeds and the produced dict
maps `"count"` to the number of records (whatever the metric keys are:
the trailing `("count", count)` pair wins every lookup of `"count"`). -/
theorem makeSummary_ok_count {R : Type} (f : R → List ℚ) (keys : List String)
    (records : List R) (harity : ∀ r ∈ records, (f r).length = keys.length)
    (hne : records ≠ []) :
    ∃ s, makeSummary (fun r => Except.ok (f r)) keys records = Except.ok s
      ∧ dictGet s "count" = some (records.length : ℚ) := by
  have hmap := mapM_ok f records
  have htl : ∀ t ∈ records.map f, t.length = keys.length := by
    intro t ht
    rcases List.mem_map.mp ht with ⟨r, hr, rfl⟩
    exact harity r hr
  have haug : ∀ t ∈ (records.map f).map pairWith1, t.length = keys.length + 1 := by
    intro t ht
    rcases List.mem_map.mp ht with ⟨u, hu, rfl⟩
    simp [pairWith1, htl u hu]
  have hagglen : (combineGlobally (keys.length + 1) ((records.map f).map pairWith1)).length
      = keys.length + 1 := combineGlobally_length _ _ haug
  have hz : (zeros ℚ (keys.length + 1))[keys.length]? = some 0 := by
    simp [zeros]
  have haggn : (combineGlobally (keys.length + 1) ((records.map f).map pairWith1))[keys.length]?
      = some (records.length : ℚ) := by
    have := foldl_augmented_last (records.map f) (zeros ℚ (keys.length + 1)) 0 htl
      (zeros_length _) hz
    simpa [combineGlobally] using this
  have hlast : (combineGlobally (keys.length + 1) ((records.map f).map pairWith1)).getLast?
      = some (records.length : ℚ) := by
    rw [List.getLast?_eq_getElem?, hagglen]
    simpa using haggn
  have hdz : ((records.length : ℚ)) ≠ 0 := by
    have : records.length ≠ 0 := by
      cases records with
      | nil => exact absurd rfl hne
      | cons r rs => simp
    exact_mod_cast this
  have hE := avgEntries_eq _ _ hlast hdz keys 0 (by rw [hagglen]; omega)
  refine ⟨((keys.enumFrom 0).map fun p =>
      (p.2, (combineGlobally (keys.length + 1) ((records.map f).map pairWith1)).getD p.1 0
        / (records.length : ℚ)))
      ++ [("count", (records.length : ℚ))], ?_, ?_⟩
  · simp only [makeSummary, hmap, exceptBind_ok, averageAndMakeDict, hE,
      pyLast_eq_ok hlast, exceptBind_ok]
  · exact dictGet_append_count_self _ _

/-! ## Empty input and the run() stage -/

/-- Python's split always yields at least one field, so the parsed
`metric_keys` list is never empty. -/
theorem splitCommas_ne_nil (s : String) : splitCommas s ≠ [] := by
  have h : ∀ cs : List Char, splitChar ',' cs ≠ [] := by
    intro cs
    cases cs with
    | nil => simp [splitChar]
    | cons c cs' =>
      simp only [splitChar]
      cases splitChar ',' cs' with
      | nil => simp
      | cons g gs =>
        by_cases hc : c = ','
        · simp [hc]
        · simp [hc]
  simp only [splitCommas, ne_eq, List.map_eq_nil_iff]
  exact h s.data

/-- With no input records and at least one metric key, the aggregate is
the all-zero tuple and the first average `0 / 0` raises
`ZeroDivisionError`. -/
theorem makeSummary_nil_error {R : Type} (f : R → Except PyErr (List ℚ))
    (keys : List String) (hk : keys ≠ []) :
    makeSummary f keys ([] : List R) = Except.error PyErr.zeroDivisionError := by
  cases keys with
  | nil => exact absurd rfl hk
  | cons k rest =>
    have hz0 : (zeros ℚ ((k :: rest).length + 1))[0]? = some 0 := by
      simp [zeros]
    have hzl : (zeros ℚ ((k :: rest).length + 1)).getLast? = some 0 := by
      rw [List.getLast?_eq_getElem?, zeros_length]
      simp [zeros]
    have hav : averageAndMakeDict (k :: rest) (zeros ℚ ((k :: rest).length + 1))
        = Except.error PyErr.zeroDivisionError := by
      simp only [averageAndMakeDict, avgEntries, pyIndex, pyLast]
      rw [hz0, hzl]
      simp [pyDiv, exceptBind_ok, exceptBind_error]
    calc makeSummary f (k :: rest) ([] : List R)
        = averageAndMakeDict (k :: rest) (combineGlobally ((k :: rest).length + 1) []) := rfl
      _ = Except.error PyErr.zeroDivisionError := by
          rw [combineGlobally_nil]
          exact hav

/-- With no records and no metric keys, the pipeline degenerately
succeeds: the summary is `{"count": 0}` (no division is attempted). -/
theorem makeSummary_nil_nil {R : Type} (f : R → Except PyErr (List ℚ)) :
    makeSummary f ([] : List String) ([] : List R) = Except.ok [("count", 0)] := rfl

/-! ## Claim theorems: empty input, count entry, metric_keys handling -/

/-- **C3**: with zero input records the job fails with Python's
`ZeroDivisionError` — for every metric function and every `--metric_keys`
argument — and never returns a summary, so nothing reaches the sink and
no summary containing `NaN` or `Infinity` is ever emitted. -/
theorem empty_input_always_zero_division_error {R : Type}
    (f : R → Except PyErr (List ℚ)) (arg : String) :
    runJob (some f) arg ([] : List R) = Except.error PyErr.zeroDivisionError
    ∧ ∀ s, runJob (some f) arg ([] : List R) ≠ Except.ok s := by
  have h : makeSummary f (splitCommas arg) ([] : List R)
      = Except.error PyErr.zeroDivisionError :=
    makeSummary_nil_error f _ (splitCommas_ne_nil arg)
  refine ⟨h, fun s hs => ?_⟩
  rw [show runJob (some f) arg ([] : List R)
      = makeSummary f (splitCommas arg) [] from rfl, h] at hs
  exact Except.noConfusion hs

/-- **C5**: each metric tuple is augmented with exactly one trailing unit
element (value 1), and whenever the pipeline outputs a summary, its
`"count"` entry equals the number of records processed, whatever the
metric values are. -/
theorem summary_count_is_record_count {R : Type} (f : R → List ℚ)
    (keys : List String) (records : List R)
    (harity : ∀ r ∈ records, (f r).length = keys.length)
    (s : List (String × ℚ))
    (hs : makeSummary (fun r => Except.ok (f r)) keys records = Except.ok s) :
    dictGet s "count" = some (records.length : ℚ)
    ∧ ∀ t : List ℚ, (pairWith1 t).length = t.length + 1
        ∧ (pairWith1 t).getLast? = some 1 := by
  refine ⟨?_, fun t => ⟨by simp [pairWith1], by simp [pairWith1]⟩⟩
  cases records with
  | nil =>
    cases keys with
    | nil =>
      rw [makeSummary_nil_nil] at hs
      injection hs with h
      subst h
      simpa using dictGet_append_count_self ([] : List (String × ℚ)) 0
    | cons k rest =>
      rw [makeSummary_nil_error _ (k :: rest) (by simp)] at hs
      exact Except.noConfusion hs
  | cons r rs =>
    obtain ⟨s', hok, hcount⟩ := makeSummary_ok_count f keys (r :: rs) harity (by simp)
    rw [hok] at hs
    injection hs with h
    subst h
    exact hcount

/-- Witness for C5: two records with metric value 1 under one key. -/
theorem summary_count_is_record_count_witness :
    dictGet [("a", (1 : ℚ)), ("count", 2)] "count" = some 2 := by
  have hs : makeSummary (fun r : Unit => Except.ok ((fun _ : Unit => [(1 : ℚ)]) r)) ["a"] [(), ()]
      = Except.ok [("a", 1), ("count", 2)] :=
    makeSummary_concrete (fun _ : Unit => [(1 : ℚ)]) ["a"] [(), ()] [2, 2] _
      (by norm_num [combineGlobally, zeros, pairWith1, addTuple,
        show List.replicate 2 (0 : ℚ) = [0, 0] from rfl])
      (by norm_num [averageAndMakeDict, avgEntries, pyIndex, pyLast, pyDiv, exceptBind_ok])
  have h := (summary_count_is_record_count (fun _ : Unit => [1]) ["a"] [(), ()]
    (by decide) [("a", 1), ("count", 2)] hs).1
  simpa using h

/-- **C9**: if `metric_keys` contains the reserved name `"count"` at some
position `i` and at least one record is processed, `MakeSummary` raises
no error, and the summary dict binds `"count"` to the total record count:
the trailing `("count", count)` pair overwrites the earlier
`("count", mean_i)` entry during `dict(...)` construction, silently
discarding metric `i`'s average. -/
theorem count_in_metric_keys_is_overwritten {R : Type} (f : R → List ℚ)
    (keys : List String) (records : List R) (i : ℕ)
    (harity : ∀ r ∈ records, (f r).length = keys.length)
    (_hi : i < keys.length) (_hcount : keys.getD i "" = "count")
    (hne : records ≠ []) :
    ∃ s, makeSummary (fun r => Except.ok (f r)) keys records = Except.ok s
      ∧ dictGet s "count" = some (records.length : ℚ) :=
  makeSummary_ok_count f keys records harity hne

/-- Witness for C9: `metric_keys = ["count", "mse"]`, two records. -/
theorem count_in_metric_keys_is_overwritten_witness :
    ∃ s, makeSummary (fun _ : Unit => Except.ok [(1 : ℚ), 2]) ["count", "mse"] [(), ()]
        = Except.ok s ∧ dictGet s "count" = some 2 := by
  obtain ⟨s, hok, hc⟩ := count_in_metric_keys_is_overwritten (fun _ : Unit => [1, 2])
    ["count", "mse"] [(), ()] 0 (by decide) (by decide) (by decide) (by decide)
  exact ⟨s, hok, by simpa using hc⟩

/-- Counterexample to C7: `metric_keys = "count,mse"` is not rejected at
startup.  With a callable metric function the job runs all records and
returns a summary, where C7 predicts a fatal configuration error before
any record is read. -/
theorem run_count_metric_keys_not_rejected :
    runJob (some fun _ : Unit => Except.ok [(1 : ℚ), 2]) "count,mse" [(), ()]
      = Except.ok [("count", 1), ("mse", 2), ("count", 2)] := by
  show makeSummary (fun _ : Unit => Except.ok [(1 : ℚ), 2]) (splitCommas "count,mse") [(), ()]
      = Except.ok [("count", 1), ("mse", 2), ("count", 2)]
  rw [show splitCommas "count,mse" = ["count", "mse"] from rfl]
  exact makeSummary_concrete (fun _ : Unit => [(1 : ℚ), 2]) ["count", "mse"] [(), ()] [2, 4, 2] _
    (by norm_num [combineGlobally, zeros, pairWith1, addTuple,
      show List.replicate 3 (0 : ℚ) = [0, 0, 0] from rfl])
    (by norm_num [averageAndMakeDict, avgEntries, pyIndex, pyLast, pyDiv, exceptBind_ok])

/-- **C7 (amended)**: `run()` performs no validation of `metric_keys`: the
raw string is split on commas and used as-is, so `"count,mse"` is accepted
and (with a callable metric function of matching arity and at least one
record) the job succeeds, the summary's `"count"` key ending up bound to
the record count.  The only fatal startup check is that the decoded
metric function is callable, which raises `ValueError`. -/
theorem run_no_metric_keys_validation {R : Type} (f : R → List ℚ) (records : List R)
    (harity : ∀ r ∈ records, (f r).length = 2) (hne : records ≠ []) :
    (∃ s, runJob (some fun r => Except.ok (f r)) "count,mse" records = Except.ok s
        ∧ dictGet s "count" = some (records.length : ℚ))
    ∧ ∀ (arg : String) (records' : List R),
        runJob (R := R) (α := ℚ) none arg records'
          = Except.error
              (PyErr.valueError "--metric_fn_encoded must be an encoded callable.") := by
  constructor
  · have hsplit : splitCommas "count,mse" = ["count", "mse"] := rfl
    have hres := makeSummary_ok_count f ["count", "mse"] records
      (fun r hr => by simpa using harity r hr) hne
    rw [show runJob (some fun r => Except.ok (f r)) "count,mse" records
        = makeSummary (fun r => Except.ok (f r)) (splitCommas "count,mse") records from rfl,
      hsplit]
    exact hres
  · intro arg records'
    rfl

/-- Witness for the amended C7: two records, metric tuples `[1, 2]`. -/
theorem run_no_metric_keys_validation_witness :
    ∃ s, runJob (some fun _ : Unit => Except.ok [(1 : ℚ), 2]) "count,mse" [(), ()]
        = Except.ok s ∧ dictGet s "count" = some 2 := by
  obtain ⟨⟨s, hok, hc⟩, _⟩ := run_no_metric_keys_validation (fun _ : Unit => [1, 2]) [(), ()]
    (by decide) (by decide)
  exact ⟨s, hok, by simpa using hc⟩

/-! ## The documented end-to-end scenario -/

theorem doc_r1 :
    metricFnDoc [("input_label", PyVal.num 1), ("classes", PyVal.num 1),
      ("scores", PyVal.arr [PyVal.num 0.1, PyVal.num 0.9])]
      = Except.ok [Real.log (10 / 9), 0] := by
  rw [show metricFnDoc [("input_label", PyVal.num 1), ("classes", PyVal.num 1),
      ("scores", PyVal.arr [PyVal.num 0.1, PyVal.num 0.9])]
      = Except.ok
          [Real.log (1 + Real.exp (-((1 : ℝ) * 2 - 1) * Real.log (0.9 / (1 - 0.9)))),
           ((1 : ℝ) - 1) ^ 2] from rfl,
    show ((0.9 : ℝ) / (1 - 0.9)) = 9 by norm_num,
    show -((1 : ℝ) * 2 - 1) = -1 by norm_num, neg_one_mul, Real.exp_neg,
    Real.exp_log (by norm_num : (0 : ℝ) < 9)]
  norm_num

theorem doc_r2 :
    metricFnDoc [("input_label", PyVal.num 0), ("classes", PyVal.num 0),
      ("scores", PyVal.arr [PyVal.num 0.7, PyVal.num 0.3])]
      = Except.ok [Real.log (10 / 7), 0] := by
  rw [show metricFnDoc [("input_label", PyVal.num 0), ("classes", PyVal.num 0),
      ("scores", PyVal.arr [PyVal.num 0.7, PyVal.num 0.3])]
      = Except.ok
          [Real.log (1 + Real.exp (-((0 : ℝ) * 2 - 1) * Real.log (0.3 / (1 - 0.3)))),
           ((0 : ℝ) - 0) ^ 2] from rfl,
    show ((0.3 : ℝ) / (1 - 0.3)) = 3 / 7 by norm_num,
    show -((0 : ℝ) * 2 - 1) = 1 by norm_num, one_mul,
    Real.exp_log (by norm_num : (0 : ℝ) < 3 / 7)]
  norm_num

theorem doc_r3 :
    metricFnDoc [("input_label", PyVal.num 1), ("classes", PyVal.num 0),
      ("scores", PyVal.arr [PyVal.num 0.6, PyVal.num 0.4])]
      = Except.ok [Real.log (5 / 2), 1] := by
  rw [show metricFnDoc [("input_label", PyVal.num 1), ("classes", PyVal.num 0),
      ("scores", PyVal.arr [PyVal.num 0.6, PyVal.num 0.4])]
      = Except.ok
          [Real.log (1 + Real.exp (-((1 : ℝ) * 2 - 1) * Real.log (0.4 / (1 - 0.4)))),
           ((0 : ℝ) - 1) ^ 2] from rfl,
    show ((0.4 : ℝ) / (1 - 0.4)) = 2 / 3 by norm_num,
    show -((1 : ℝ) * 2 - 1) = -1 by norm_num, neg_one_mul, Real.exp_neg,
    Real.exp_log (by norm_num : (0 : ℝ) < 2 / 3)]
  norm_num

theorem doc_r4 :
    metricFnDoc [("input_label", PyVal.num 1), ("classes", PyVal.num 1),
      ("scores", PyVal.arr [PyVal.num 0.2, PyVal.num 0.8])]
      = Except.ok [Real.log (5 / 4), 0] := by
  rw [show metricFnDoc [("input_label", PyVal.num 1), ("classes", PyVal.num 1),
      ("scores", PyVal.arr [PyVal.num 0.2, PyVal.num 0.8])]
      = Except.ok
          [Real.log (1 + Real.exp (-((1 : ℝ) * 2 - 1) * Real.log (0.8 / (1 - 0.8)))),
           ((1 : ℝ) - 1) ^ 2] from rfl,
    show ((0.8 : ℝ) / (1 - 0.8)) = 4 by norm_num,
    show -((1 : ℝ) * 2 - 1) = -1 by norm_num, neg_one_mul, Real.exp_neg,
    Real.exp_log (by norm_num : (0 : ℝ) < 4)]
  norm_num

theorem doc_mapM :
    labelledRecords.mapM metricFnDoc
      = Except.ok [[Real.log (10 / 9), 0], [Real.log (10 / 7), 0],
          [Real.log (5 / 2), 1], [Real.log (5 / 4), 0]] := by
  simp only [labelledRecords, List.mapM_cons, List.mapM_nil, doc_r1, doc_r2, doc_r3, doc_r4,
    exceptBind_ok, exceptPure]

theorem doc_agg :
    combineGlobally 3 ([[Real.log (10 / 9), 0], [Real.log (10 / 7), 0],
        [Real.log (5 / 2), 1], [Real.log (5 / 4), 0]].map pairWith1)
      = [Real.log (10 / 9) + Real.log (10 / 7) + Real.log (5 / 2) + Real.log (5 / 4), 1, 4] := by
  simp only [List.map_cons, List.map_nil, pairWith1, List.cons_append, List.nil_append,
    combineGlobally, show zeros ℝ 3 = [0, 0, 0] from rfl, List.foldl_cons, List.foldl_nil,
    addTuple, List.zipWith_cons_cons, List.zipWith_nil_right]
  norm_num

theorem doc_avg :
    averageAndMakeDict ["log_loss", "mse"]
        [Real.log (10 / 9) + Real.log (10 / 7) + Real.log (5 / 2) + Real.log (5 / 4), 1, 4]
      = Except.ok
          [("log_loss",
            (Real.log (10 / 9) + Real.log (10 / 7) + Real.log (5 / 2) + Real.log (5 / 4)) / 4),
           ("mse", 1 / 4), ("count", 4)] := by
  norm_num [averageAndMakeDict, avgEntries, pyIndex, pyLast, pyDiv, exceptBind_ok]

theorem doc_log_sum :
    Real.log (10 / 9) + Real.log (10 / 7) + Real.log (5 / 2) + Real.log (5 / 4)
      = Real.log (625 / 126) := by
  rw [← Real.log_mul (by norm_num) (by norm_num), ← Real.log_mul (by norm_num) (by norm_num),
    ← Real.log_mul (by norm_num) (by norm_num)]
  norm_num

/-- The exact mean log loss is below `0.42`, via
`625/126 < 1.0525 ^ 32 ≤ exp(1.68)`. -/
theorem doc_log_loss_lt :
    Real.log ((625 : ℝ) / 126) / 4 < 0.42 := by
  have h32 : ((625 : ℝ) / 126) < 1.0525 ^ (32 : ℕ) := by norm_num
  have hb : (1.0525 : ℝ) ≤ Real.exp 0.0525 := by
    have := Real.add_one_le_exp (0.0525 : ℝ)
    linarith
  have hexp : (1.0525 : ℝ) ^ (32 : ℕ) ≤ Real.exp 1.68 := by
    calc (1.0525 : ℝ) ^ (32 : ℕ) ≤ (Real.exp 0.0525) ^ (32 : ℕ) :=
          pow_le_pow_left₀ (by norm_num) hb 32
      _ = Real.exp ((32 : ℕ) * 0.0525) := (Real.exp_nat_mul 0.0525 32).symm
      _ = Real.exp 1.68 := by norm_num
  have hlog : Real.log ((625 : ℝ) / 126) < 1.68 := by
    rw [Real.log_lt_iff_lt_exp (by norm_num : (0 : ℝ) < 625 / 126)]
    exact lt_of_lt_of_le h32 hexp
  linarith

theorem doc_summary :
    makeSummary metricFnDoc ["log_loss", "mse"] labelledRecords
      = Except.ok
          [("log_loss", Real.log (625 / 126) / 4), ("mse", 1 / 4), ("count", 4)] := by
  simp only [makeSummary, doc_mapM, exceptBind_ok]
  rw [show (["log_loss", "mse"] : List String).length + 1 = 3 from rfl, doc_agg, doc_avg,
    doc_log_sum]

/-- Counterexample to C8: on the scenario's four records (which carry only
`classes` and `scores`) the documented metric function raises
`KeyError("input_label")` at the very first record, so the pipeline
errors instead of producing the claimed summary. -/
theorem end_to_end_documented_fn_fails :
    makeSummary metricFnDoc ["log_loss", "mse"] exampleRecords
      = Except.error (PyErr.keyError "input_label")
    ∧ makeSummary metricFnDoc ["log_loss", "mse"] exampleRecords
        ≠ Except.ok claimedDocSummary := by
  refine ⟨rfl, fun h => ?_⟩
  rw [show makeSummary metricFnDoc ["log_loss", "mse"] exampleRecords
      = Except.error (PyErr.keyError "input_label") from rfl] at h
  exact Except.noConfusion h

/-- **C8 (amended)**: the scenario records lack the `input_label` field the
documented metric function reads, so the pipeline on them fails with
`KeyError`; with `input_label` supplied from the documented input file's
`inputs` column (labels 1, 0, 1, 1), exact real arithmetic produces the
summary `log_loss = log(625/126)/4 ≈ 0.4004`, `mse = 1/4`, `count = 4`;
the documented value `0.43890510565304547` is not the mean log loss of
these records (the exact mean is below `0.42`, so the discrepancy is not
floating-point rounding). -/
theorem end_to_end_exact_summary :
    makeSummary metricFnDoc ["log_loss", "mse"] exampleRecords
      = Except.error (PyErr.keyError "input_label")
    ∧ makeSummary metricFnDoc ["log_loss", "mse"] labelledRecords
      = Except.ok [("log_loss", Real.log (625 / 126) / 4), ("mse", 1 / 4), ("count", 4)]
    ∧ Real.log ((625 : ℝ) / 126) / 4 < 0.42
    ∧ Real.log ((625 : ℝ) / 126) / 4 ≠ 0.43890510565304547 := by
  refine ⟨rfl, doc_summary, doc_log_loss_lt, fun h => ?_⟩
  have := doc_log_loss_lt
  rw [h] at this
  norm_num at this

/-! ## JsonCoder: string and number round-trips -/

theorem parseStrAux_escape :
    ∀ (s rest : List Char),
      parseStrAux (escapeChars s ++ '"' :: rest) = some (s, rest) := by
  intro s
  induction s with
  | nil =>
    intro rest
    rw [show escapeChars [] ++ '"' :: rest = '"' :: rest from rfl, parseStrAux.eq_def]
    simp
  | cons c cs ih =>
    intro rest
    by_cases hc : c = '"' ∨ c = '\\'
    · simp only [escapeChars, escapeChar, if_pos hc, List.cons_append, List.nil_append,
        List.append_assoc]
      rw [parseStrAux.eq_def]
      simp only [if_neg (by decide : ¬ ('\\' : Char) = '"'), if_pos rfl]
      simp [ih rest]
    · simp only [escapeChars, escapeChar, if_neg hc, List.cons_append, List.nil_append,
        List.append_assoc]
      rw [parseStrAux.eq_def]
      push_neg at hc
      simp only [if_neg hc.1, if_neg hc.2]
      simp [ih rest]

theorem digitChar_isDigit {m : ℕ} (h : m < 10) : (Nat.digitChar m).isDigit = true := by
  interval_cases m <;> decide

theorem digitChar_toNat {m : ℕ} (h : m < 10) : (Nat.digitChar m).toNat = 48 + m := by
  interval_cases m <;> decide

theorem encodeNat_ne_nil (n : ℕ) : encodeNat n ≠ [] := by
  rw [encodeNat]
  by_cases h : n < 10 <;> simp [h]

theorem encodeNat_digits : ∀ n : ℕ, ∀ c ∈ encodeNat n, c.isDigit = true := by
  intro n
  induction n using Nat.strong_induction_on with
  | _ n ih =>
    intro c hc
    rw [encodeNat] at hc
    by_cases h : n < 10
    · rw [dif_pos h] at hc
      simp only [List.mem_singleton] at hc
      subst hc
      exact digitChar_isDigit h
    · rw [dif_neg h] at hc
      rcases List.mem_append.mp hc with h1 | h1
      · exact ih (n / 10) (Nat.div_lt_self (by omega) (by omega)) c h1
      · simp only [List.mem_singleton] at h1
        subst h1
        exact digitChar_isDigit (Nat.mod_lt _ (by omega))

theorem takeWhile_append_all {α : Type} (p : α → Bool) :
    ∀ (l rest : List α), (∀ c ∈ l, p c = true) →
      (∀ r, rest.head? = some r → p r = false) →
      (l ++ rest).takeWhile p = l ∧ (l ++ rest).dropWhile p = rest := by
  intro l
  induction l with
  | nil =>
    intro rest _ hrest
    cases rest with
    | nil => simp
    | cons r rs =>
      have := hrest r rfl
      simp [List.takeWhile, List.dropWhile, this]
  | cons x xs ih =>
    intro rest hl hrest
    have hx : p x = true := hl x (by simp)
    have := ih rest (fun c hc => hl c (by simp [hc])) hrest
    simp [List.takeWhile, List.dropWhile, hx, this.1, this.2]

theorem encodeNat_foldl :
    ∀ n : ℕ, (encodeNat n).foldl (fun a c => 10 * a + (c.toNat - 48)) 0 = n := by
  intro n
  induction n using Nat.strong_induction_on with
  | _ n ih =>
    rw [encodeNat]
    by_cases h : n < 10
    · rw [dif_pos h]
      simp [List.foldl, digitChar_toNat h]
    · rw [dif_neg h]
      rw [List.foldl_append, ih (n / 10) (Nat.div_lt_self (by omega) (by omega))]
      simp only [List.foldl]
      rw [digitChar_toNat (Nat.mod_lt _ (by omega))]
      omega

theorem parseNatNum_encode (n : ℕ) (rest : List Char)
    (hrest : ∀ r, rest.head? = some r → r.isDigit = false) :
    parseNatNum (encodeNat n ++ rest) = some (n, rest) := by
  have h := takeWhile_append_all Char.isDigit (encodeNat n) rest (encodeNat_digits n) hrest
  rw [parseNatNum, if_neg (by rw [h.1]; exact encodeNat_ne_nil n), h.1, h.2,
    encodeNat_foldl]

theorem isDigit_toNat_range {c : Char} (h : c.isDigit = true) :
    48 ≤ c.toNat ∧ c.toNat ≤ 57 := by
  simp only [Char.isDigit, Bool.and_eq_true, decide_eq_true_eq] at h
  exact ⟨h.1, h.2⟩

theorem isDigit_ne {c : Char} (h : c.isDigit = true) :
    c ≠ 'n' ∧ c ≠ 't' ∧ c ≠ 'f' ∧ c ≠ '"' ∧ c ≠ '[' ∧ c ≠ '\x7b' ∧ c ≠ ']'
      ∧ c ≠ '\x7d' ∧ c ≠ ',' ∧ c ≠ '-' := by
  refine ⟨?_, ?_, ?_, ?_, ?_, ?_, ?_, ?_, ?_, ?_⟩ <;>
    exact fun e => absurd h (by subst e; decide)

theorem encodeDigits_length : ∀ (w n : ℕ), (encodeDigits w n).length = w
  | 0, _ => rfl
  | w + 1, n => by
    show (encodeDigits w (n / 10) ++ [Nat.digitChar (n % 10)]).length = w + 1
    rw [List.length_append, encodeDigits_length w (n / 10)]
    rfl

theorem encodeDigits_digits : ∀ (w n : ℕ), ∀ c ∈ encodeDigits w n, c.isDigit = true
  | 0, n => by
    intro c hc
    simp [encodeDigits] at hc
  | w + 1, n => by
    intro c hc
    rw [show encodeDigits (w + 1) n
      = encodeDigits w (n / 10) ++ [Nat.digitChar (n % 10)] from rfl] at hc
    rcases List.mem_append.mp hc with h1 | h1
    · exact encodeDigits_digits w (n / 10) c h1
    · simp only [List.mem_singleton] at h1
      subst h1
      exact digitChar_isDigit (Nat.mod_lt _ (by omega))

theorem encodeDigits_foldl :
    ∀ (w n acc : ℕ), n < 10 ^ w →
      (encodeDigits w n).foldl (fun a c => 10 * a + (c.toNat - 48)) acc
        = acc * 10 ^ w + n
  | 0, n, acc => by
    intro h
    interval_cases n
    simp [encodeDigits]
  | w + 1, n, acc => by
    intro h
    have hdiv : n / 10 < 10 ^ w :=
      Nat.div_lt_of_lt_mul (by rw [pow_succ] at h; omega)
    rw [show encodeDigits (w + 1) n
        = encodeDigits w (n / 10) ++ [Nat.digitChar (n % 10)] from rfl,
      List.foldl_append, encodeDigits_foldl w (n / 10) acc hdiv]
    simp only [List.foldl]
    rw [digitChar_toNat (Nat.mod_lt _ (by omega))]
    have h48 : 48 + n % 10 - 48 = n % 10 := by omega
    rw [h48, pow_succ]
    calc 10 * (acc * 10 ^ w + n / 10) + n % 10
        = acc * (10 ^ w * 10) + (10 * (n / 10) + n % 10) := by ring
      _ = acc * (10 ^ w * 10) + n := by rw [Nat.div_add_mod]

/-! ## JsonCoder: encoder equations and head characters -/

theorem encode_null : Json.encode .null = ['n', 'u', 'l', 'l'] := by
  rw [Json.encode.eq_def]

theorem encode_true : Json.encode (.bool true) = ['t', 'r', 'u', 'e'] := by
  rw [Json.encode.eq_def]; rfl

theorem encode_false : Json.encode (.bool false) = ['f', 'a', 'l', 's', 'e'] := by
  rw [Json.encode.eq_def]; rfl

theorem encode_int (n : ℤ) : Json.encode (.int n) = encodeInt n := by
  rw [Json.encode.eq_def]

theorem encode_dec (m : ℤ) (e : ℕ) : Json.encode (.dec m e) = encodeDec m e := by
  rw [Json.encode.eq_def]

theorem encode_str (s : String) :
    Json.encode (.str s) = '"' :: (escapeChars s.data ++ ['"']) := by
  rw [Json.encode.eq_def]

theorem encode_arr_nil : Json.encode (.arr []) = ['[', ']'] := by
  rw [Json.encode.eq_def]

theorem encode_arr_cons (x : Json) (xs : List Json) :
    Json.encode (.arr (x :: xs)) = '[' :: (Json.encode x ++ encodeItems xs ++ [']']) := by
  rw [Json.encode.eq_def]

theorem encode_obj_nil : Json.encode (.obj []) = ['\x7b', '\x7d'] := by
  rw [Json.encode.eq_def]

theorem encode_obj_cons (m : String × Json) (ms : List (String × Json)) :
    Json.encode (.obj (m :: ms))
      = '\x7b' :: (encodeMember m ++ encodeMembers ms ++ ['\x7d']) := by
  rw [Json.encode.eq_def]

theorem encodeItems_nil : encodeItems [] = [] := by
  rw [encodeItems.eq_def]

theorem encodeItems_cons (x : Json) (xs : List Json) :
    encodeItems (x :: xs) = ',' :: ' ' :: (Json.encode x ++ encodeItems xs) := by
  rw [encodeItems.eq_def]

theorem encodeMember_eq (k : String) (v : Json) :
    encodeMember (k, v) = '"' :: (escapeChars k.data ++ ['"', ':', ' '] ++ Json.encode v) := by
  rw [encodeMember.eq_def]

theorem encodeMembers_nil : encodeMembers [] = [] := by
  rw [encodeMembers.eq_def]

theorem encodeMembers_cons (m : String × Json) (ms : List (String × Json)) :
    encodeMembers (m :: ms) = ',' :: ' ' :: (encodeMember m ++ encodeMembers ms) := by
  rw [encodeMembers.eq_def]

/-! ## JsonCoder: the parser inverts the encoder -/

theorem size_pos (j : Json) : 1 ≤ j.size := by
  cases j <;> simp only [Json.size.eq_def] <;> omega

theorem restOk_head {rest : List Char} (h : restOk rest) :
    ∀ r, rest.head? = some r → r.isDigit = false := by
  cases rest with
  | nil => intro r hr; simp at hr
  | cons c cs =>
    intro r hr
    simp only [List.head?_cons, Option.some.injEq] at hr
    subst hr
    simp only [restOk] at h
    exact (Bool.not_eq_true _) ▸ h.1

theorem restOk_of_head_false {c : Char} {cs : List Char} (h : c.isDigit = false)
    (h' : c ≠ '.') : restOk (c :: cs) := by
  simp [restOk, h, h']

theorem encodeInt_head (n : ℤ) :
    ∃ d ds, encodeInt n = d :: ds ∧ d ≠ 'n' ∧ d ≠ 't' ∧ d ≠ 'f' ∧ d ≠ '"'
      ∧ d ≠ '[' ∧ d ≠ '\x7b' := by
  cases n with
  | ofNat m =>
    obtain ⟨d, ds, hd⟩ : ∃ d ds, encodeNat m = d :: ds := by
      cases h : encodeNat m with
      | nil => exact absurd h (encodeNat_ne_nil m)
      | cons d ds => exact ⟨d, ds, rfl⟩
    have hdig : d.isDigit = true := encodeNat_digits m d (by rw [hd]; simp)
    obtain ⟨h1, h2, h3, h4, h5, h6, _⟩ := isDigit_ne hdig
    exact ⟨d, ds, by simp only [encodeInt.eq_def]; exact hd, h1, h2, h3, h4, h5, h6⟩
  | negSucc m =>
    exact ⟨'-', encodeNat (m + 1), by simp only [encodeInt.eq_def], by decide, by decide,
      by decide, by decide, by decide, by decide⟩

theorem encodeDec_head (m : ℤ) (e : ℕ) :
    ∃ d ds, encodeDec m e = d :: ds ∧ d ≠ 'n' ∧ d ≠ 't' ∧ d ≠ 'f' ∧ d ≠ '"'
      ∧ d ≠ '[' ∧ d ≠ '\x7b' ∧ d ≠ ']' ∧ d ≠ '\x7d' := by
  rw [encodeDec]
  by_cases hm : m < 0
  · rw [if_pos hm]
    exact ⟨'-', _, rfl, by decide, by decide, by decide, by decide, by decide, by decide,
      by decide, by decide⟩
  · rw [if_neg hm]
    obtain ⟨d, ds, hd⟩ : ∃ d ds, encodeNat (m.natAbs / 10 ^ (e + 1)) = d :: ds := by
      cases h : encodeNat (m.natAbs / 10 ^ (e + 1)) with
      | nil => exact absurd h (encodeNat_ne_nil _)
      | cons d ds => exact ⟨d, ds, rfl⟩
    have hdig : d.isDigit = true := encodeNat_digits _ d (by rw [hd]; simp)
    obtain ⟨g1, g2, g3, g4, g5, g6, g7, g8, _, _⟩ := isDigit_ne hdig
    refine ⟨d, ds ++ '.' :: encodeDigits (e + 1) (m.natAbs % 10 ^ (e + 1)), ?_,
      g1, g2, g3, g4, g5, g6, g7, g8⟩
    rw [List.nil_append, hd]
    rfl

/-- Every encoded value starts with a character that closes neither an
array nor an object. -/
theorem encode_head (j : Json) :
    ∃ c cs, j.encode = c :: cs ∧ c ≠ ']' ∧ c ≠ '\x7d' := by
  cases j with
  | null => exact ⟨'n', _, encode_null, by decide, by decide⟩
  | bool b =>
    cases b with
    | false => exact ⟨'f', _, encode_false, by decide, by decide⟩
    | true => exact ⟨'t', _, encode_true, by decide, by decide⟩
  | int n =>
    cases n with
    | ofNat m =>
      obtain ⟨d, ds, hd⟩ : ∃ d ds, encodeNat m = d :: ds := by
        cases h : encodeNat m with
        | nil => exact absurd h (encodeNat_ne_nil m)
        | cons d ds => exact ⟨d, ds, rfl⟩
      have hdig : d.isDigit = true := encodeNat_digits m d (by rw [hd]; simp)
      refine ⟨d, ds, ?_, (isDigit_ne hdig).2.2.2.2.2.2.1, (isDigit_ne hdig).2.2.2.2.2.2.2.1⟩
      rw [encode_int, show encodeInt (Int.ofNat m) = encodeNat m from rfl, hd]
    | negSucc m =>
      refine ⟨'-', encodeNat (m + 1), ?_, by decide, by decide⟩
      rw [encode_int, encodeInt.eq_def]
  | dec m e =>
    obtain ⟨d, ds, hd, _, _, _, _, _, _, g7, g8⟩ := encodeDec_head m e
    exact ⟨d, ds, by rw [encode_dec]; exact hd, g7, g8⟩
  | str s => exact ⟨'"', _, encode_str s, by decide, by decide⟩
  | arr l =>
    cases l with
    | nil => exact ⟨'[', _, encode_arr_nil, by decide, by decide⟩
    | cons x xs => exact ⟨'[', _, encode_arr_cons x xs, by decide, by decide⟩
  | obj ms =>
    cases ms with
    | nil => exact ⟨'\x7b', _, encode_obj_nil, by decide, by decide⟩
    | cons m ms => exact ⟨'\x7b', _, encode_obj_cons m ms, by decide, by decide⟩

theorem parseNumBody_int (neg : Bool) (a : ℕ) (rest : List Char) (hrest : restOk rest) :
    parseNumBody neg (encodeNat a ++ rest) = some (.int (signedVal neg a), rest) := by
  rw [parseNumBody, parseNatNum_encode a rest (restOk_head hrest)]
  cases rest with
  | nil => rfl
  | cons r rs =>
    simp only [restOk] at hrest
    split
    · rename_i heq
      exact absurd heq (by simp)
    · rename_i a2 rest2 heq
      injection heq with heq1
      injection heq1 with heq2 heq3
      injection heq3 with h1 _
      exact absurd h1 hrest.2
    · rename_i a2 rest2 hno heq
      injection heq with heq1
      injection heq1 with heq2 heq3
      rw [heq2, heq3]

theorem parseNumber_encodeInt (z : ℤ) (rest : List Char) (hrest : restOk rest) :
    parseNumber (encodeInt z ++ rest) = some (.int z, rest) := by
  cases z with
  | ofNat n =>
    obtain ⟨d, ds, hd⟩ : ∃ d ds, encodeNat n = d :: ds := by
      cases h : encodeNat n with
      | nil => exact absurd h (encodeNat_ne_nil n)
      | cons d ds => exact ⟨d, ds, rfl⟩
    have hdig : d.isDigit = true := encodeNat_digits n d (by rw [hd]; simp)
    have hnd : d ≠ '-' := (isDigit_ne hdig).2.2.2.2.2.2.2.2.2
    rw [show encodeInt (Int.ofNat n) = encodeNat n from rfl, hd, List.cons_append,
      parseNumber.eq_def]
    split
    · rename_i cs heq
      injection heq with h1 _
      exact absurd h1 hnd
    · rw [← List.cons_append, ← hd, parseNumBody_int false n rest hrest]
      rfl
  | negSucc k =>
    rw [show encodeInt (Int.negSucc k) = '-' :: encodeNat (k + 1) from rfl, List.cons_append]
    show parseNumBody true (encodeNat (k + 1) ++ rest) = some (.int (Int.negSucc k), rest)
    rw [parseNumBody_int true (k + 1) rest hrest]
    have hv : signedVal true (k + 1) = Int.negSucc k := by
      show -((k + 1 : ℕ) : ℤ) = Int.negSucc k
      rw [Int.negSucc_eq]
      push_cast
      ring
    rw [hv]

theorem parseNumBody_dec (neg : Bool) (a e : ℕ) (rest : List Char) (hrest : restOk rest) :
    parseNumBody neg
        (encodeNat (a / 10 ^ (e + 1))
          ++ '.' :: (encodeDigits (e + 1) (a % 10 ^ (e + 1)) ++ rest))
      = some (.dec (signedVal neg a) e, rest) := by
  have hmod : a % 10 ^ (e + 1) < 10 ^ (e + 1) := Nat.mod_lt _ (by positivity)
  have htail := takeWhile_append_all Char.isDigit (encodeDigits (e + 1) (a % 10 ^ (e + 1)))
    rest (encodeDigits_digits (e + 1) (a % 10 ^ (e + 1))) (restOk_head hrest)
  have hq := parseNatNum_encode (a / 10 ^ (e + 1))
    ('.' :: (encodeDigits (e + 1) (a % 10 ^ (e + 1)) ++ rest))
    (fun r hr => by
      simp only [List.head?_cons, Option.some.injEq] at hr
      subst hr
      decide)
  rw [parseNumBody, hq]
  show fracResult neg (a / 10 ^ (e + 1)) (encodeDigits (e + 1) (a % 10 ^ (e + 1)) ++ rest)
    = some (.dec (signedVal neg a) e, rest)
  have hne : encodeDigits (e + 1) (a % 10 ^ (e + 1)) ≠ [] := by
    intro h0
    have hl := encodeDigits_length (e + 1) (a % 10 ^ (e + 1))
    rw [h0] at hl
    simp only [List.length_nil] at hl
    omega
  rw [fracResult, htail.1, htail.2, if_neg hne]
  have hval : digitsVal (encodeDigits (e + 1) (a % 10 ^ (e + 1))) = a % 10 ^ (e + 1) := by
    rw [digitsVal, encodeDigits_foldl (e + 1) _ 0 hmod]
    simp
  rw [encodeDigits_length, hval, Nat.add_sub_cancel]
  have hrec : a / 10 ^ (e + 1) * 10 ^ (e + 1) + a % 10 ^ (e + 1) = a := by
    rw [Nat.mul_comm]
    exact Nat.div_add_mod a (10 ^ (e + 1))
  rw [hrec]

theorem parseNumber_encodeDec (m : ℤ) (e : ℕ) (rest : List Char) (hrest : restOk rest) :
    parseNumber (encodeDec m e ++ rest) = some (.dec m e, rest) := by
  by_cases hm : m < 0
  · rw [encodeDec, if_pos hm]
    simp only [List.append_assoc, List.cons_append, List.singleton_append, List.nil_append]
    show parseNumBody true
        (encodeNat (m.natAbs / 10 ^ (e + 1))
          ++ '.' :: (encodeDigits (e + 1) (m.natAbs % 10 ^ (e + 1)) ++ rest))
      = some (.dec m e, rest)
    rw [parseNumBody_dec true m.natAbs e rest hrest]
    have hv : signedVal true m.natAbs = m := by
      show -((m.natAbs : ℕ) : ℤ) = m
      omega
    rw [hv]
  · rw [encodeDec, if_neg hm]
    simp only [List.append_assoc, List.cons_append, List.nil_append]
    obtain ⟨d, ds, hd⟩ : ∃ d ds, encodeNat (m.natAbs / 10 ^ (e + 1)) = d :: ds := by
      cases h : encodeNat (m.natAbs / 10 ^ (e + 1)) with
      | nil => exact absurd h (encodeNat_ne_nil _)
      | cons d ds => exact ⟨d, ds, rfl⟩
    have hdig : d.isDigit = true := encodeNat_digits _ d (by rw [hd]; simp)
    have hnd : d ≠ '-' := (isDigit_ne hdig).2.2.2.2.2.2.2.2.2
    rw [hd, List.cons_append, parseNumber.eq_def]
    split
    · rename_i cs heq
      injection heq with h1 _
      exact absurd h1 hnd
    · rw [← List.cons_append, ← hd, parseNumBody_dec false m.natAbs e rest hrest]
      have hv : signedVal false m.natAbs = m := by
        show ((m.natAbs : ℕ) : ℤ) = m
        omega
      rw [hv]

theorem string_mk_data (s : String) : String.mk s.data = s := rfl

theorem size_arr (l : List Json) : Json.size (.arr l) = sizeItems l + 1 := by
  simp only [Json.size.eq_def]

theorem size_obj (ms : List (String × Json)) : Json.size (.obj ms) = sizeMembers ms + 1 := by
  simp only [Json.size.eq_def]

theorem sizeItems_cons (v : Json) (vs : List Json) :
    sizeItems (v :: vs) = v.size + sizeItems vs + 1 := by
  rw [sizeItems.eq_def]

theorem sizeMembers_cons (m : String × Json) (ms : List (String × Json)) :
    sizeMembers (m :: ms) = m.2.size + sizeMembers ms + 1 := by
  rw [sizeMembers.eq_def]

/-- Parser equations for each possible first character of an encoded
value. -/
theorem parseVal_null (f : ℕ) (rest : List Char) :
    parseVal (f + 1) ('n' :: 'u' :: 'l' :: 'l' :: rest) = some (.null, rest) := rfl

theorem parseVal_true (f : ℕ) (rest : List Char) :
    parseVal (f + 1) ('t' :: 'r' :: 'u' :: 'e' :: rest) = some (.bool true, rest) := rfl

theorem parseVal_false (f : ℕ) (rest : List Char) :
    parseVal (f + 1) ('f' :: 'a' :: 'l' :: 's' :: 'e' :: rest) = some (.bool false, rest) := rfl

theorem parseVal_quote (f : ℕ) (rest : List Char) :
    parseVal (f + 1) ('"' :: rest)
      = (parseStrAux rest).map fun p => (.str (String.mk p.1), p.2) := rfl

theorem parseVal_lbrack (f : ℕ) (rest : List Char) :
    parseVal (f + 1) ('[' :: rest)
      = if rest.head? = some ']' then some (.arr [], rest.tail)
        else (parseItems f rest).map fun p => (.arr p.1, p.2) := rfl

theorem parseVal_lbrace (f : ℕ) (rest : List Char) :
    parseVal (f + 1) ('\x7b' :: rest)
      = if rest.head? = some '\x7d' then some (.obj [], rest.tail)
        else (parseMembers f rest).map fun p => (.obj p.1, p.2) := rfl

theorem parseVal_other (f : ℕ) (c : Char) (cs : List Char) (h1 : c ≠ 'n') (h2 : c ≠ 't')
    (h3 : c ≠ 'f') (h4 : c ≠ '"') (h5 : c ≠ '[') (h6 : c ≠ '\x7b') :
    parseVal (f + 1) (c :: cs) = parseNumber (c :: cs) := by
  rw [parseVal.eq_def]
  simp only [if_neg h1, if_neg h2, if_neg h3, if_neg h4, if_neg h5, if_neg h6]

theorem optionBind_some {α β : Type} (a : α) (f : α → Option β) :
    (Option.bind (some a) f) = f a := rfl

theorem parseItems_succ (f : ℕ) (cs : List Char) :
    parseItems (f + 1) cs
      = (parseVal f cs).bind fun p =>
          match p.2 with
          | ']' :: rest2 => some ([p.1], rest2)
          | ',' :: ' ' :: rest2 =>
              (parseItems f rest2).bind fun q => some (p.1 :: q.1, q.2)
          | _ => none := rfl

theorem parseMembers_quote (f : ℕ) (rest : List Char) :
    parseMembers (f + 1) ('"' :: rest)
      = (parseStrAux rest).bind fun pk =>
          match pk.2 with
          | ':' :: ' ' :: rest3 =>
            (parseVal f rest3).bind fun pv =>
              match pv.2 with
              | '\x7d' :: rest5 => some ([(String.mk pk.1, pv.1)], rest5)
              | ',' :: ' ' :: rest5 =>
                  (parseMembers f rest5).bind fun pm =>
                    some ((String.mk pk.1, pv.1) :: pm.1, pm.2)
              | _ => none
          | _ => none := rfl

/-- For every fuel bound, the parser inverts the encoder: on
`encode j ++ rest` (with `rest` not starting with a digit) it returns
exactly `j` and `rest`, and correspondingly on the encoded element and
member lists of arrays and objects. -/
theorem parse_encode_master :
    ∀ fuel : ℕ,
      (∀ (j : Json) (rest : List Char), j.size ≤ fuel → restOk rest →
        parseVal fuel (j.encode ++ rest) = some (j, rest))
    ∧ (∀ (v : Json) (vs : List Json) (rest : List Char),
        sizeItems (v :: vs) ≤ fuel →
        parseItems fuel (v.encode ++ (encodeItems vs ++ ']' :: rest)) = some (v :: vs, rest))
    ∧ (∀ (k : String) (v : Json) (ms : List (String × Json)) (rest : List Char),
        sizeMembers ((k, v) :: ms) ≤ fuel →
        parseMembers fuel (encodeMember (k, v) ++ (encodeMembers ms ++ '\x7d' :: rest))
          = some ((k, v) :: ms, rest)) := by
  intro fuel
  induction fuel using Nat.strong_induction_on with
  | _ fuel ih =>
    cases fuel with
    | zero =>
      refine ⟨fun j rest hsz _ => absurd hsz (by have := size_pos j; omega),
        fun v vs rest hsz => absurd hsz (by have := size_pos v; rw [sizeItems_cons]; omega),
        fun k v ms rest hsz => absurd hsz
          (by have := size_pos v; rw [sizeMembers_cons]; omega)⟩
    | succ f =>
      obtain ⟨ihv, ihi, ihm⟩ := ih f (Nat.lt_succ_self f)
      refine ⟨?_, ?_, ?_⟩
      · -- one value
        intro j rest hsz hrest
        cases j with
        | null =>
          rw [encode_null]
          exact parseVal_null f rest
        | bool b =>
          cases b with
          | true =>
            rw [encode_true]
            exact parseVal_true f rest
          | false =>
            rw [encode_false]
            exact parseVal_false f rest
        | int n =>
          obtain ⟨d, ds, hd, h1, h2, h3, h4, h5, h6⟩ := encodeInt_head n
          have hpi : parseNumber (d :: (ds ++ rest)) = some (.int n, rest) := by
            have he : encodeInt n ++ rest = d :: (ds ++ rest) := by rw [hd]; simp
            rw [← he]
            exact parseNumber_encodeInt n rest hrest
          rw [encode_int, hd, List.cons_append, parseVal_other f d _ h1 h2 h3 h4 h5 h6, hpi]
        | dec m e =>
          obtain ⟨d, ds, hd, h1, h2, h3, h4, h5, h6, _, _⟩ := encodeDec_head m e
          have hpd : parseNumber (d :: (ds ++ rest)) = some (.dec m e, rest) := by
            have he : encodeDec m e ++ rest = d :: (ds ++ rest) := by rw [hd]; simp
            rw [← he]
            exact parseNumber_encodeDec m e rest hrest
          rw [encode_dec, hd, List.cons_append, parseVal_other f d _ h1 h2 h3 h4 h5 h6, hpd]
        | str s =>
          rw [encode_str]
          have h := parseStrAux_escape s.data rest
          simp only [List.cons_append, List.append_assoc, List.singleton_append, List.nil_append]
          rw [parseVal_quote, h]
          rfl
        | arr l =>
          cases l with
          | nil =>
            rw [encode_arr_nil]
            simp only [List.cons_append, List.singleton_append]
            rw [parseVal_lbrack, if_pos (by simp)]
            simp
          | cons x xs =>
            rw [encode_arr_cons]
            obtain ⟨c0, cs0, hx, hne1, _⟩ := encode_head x
            have hsz' : sizeItems (x :: xs) ≤ f := by
              rw [size_arr] at hsz
              omega
            have hitems := ihi x xs rest hsz'
            simp only [List.cons_append, List.append_assoc, List.singleton_append, List.nil_append]
            rw [parseVal_lbrack, if_neg (by rw [hx]; simp [hne1]), hitems]
            rfl
        | obj ms =>
          cases ms with
          | nil =>
            rw [encode_obj_nil]
            simp only [List.cons_append, List.singleton_append]
            rw [parseVal_lbrace, if_pos (by simp)]
            simp
          | cons m ms' =>
            obtain ⟨k, v⟩ := m
            rw [encode_obj_cons]
            have hsz' : sizeMembers ((k, v) :: ms') ≤ f := by
              rw [size_obj] at hsz
              omega
            have hmem := ihm k v ms' rest hsz'
            simp only [List.cons_append, List.append_assoc, List.singleton_append, List.nil_append]
            rw [parseVal_lbrace, if_neg (by rw [encodeMember_eq]; simp), hmem]
            rfl
      · -- array items
        intro v vs rest hsz
        have hszv : v.size ≤ f := by
          rw [sizeItems_cons] at hsz
          omega
        have hro : restOk (encodeItems vs ++ ']' :: rest) := by
          cases vs with
          | nil =>
            rw [encodeItems_nil]
            exact restOk_of_head_false (by decide) (by decide)
          | cons w ws =>
            rw [encodeItems_cons]
            exact restOk_of_head_false (by decide) (by decide)
        have hval := ihv v (encodeItems vs ++ ']' :: rest) hszv hro
        rw [parseItems_succ, hval, optionBind_some]
        cases vs with
        | nil =>
          rw [encodeItems_nil]
          rfl
        | cons w ws =>
          rw [encodeItems_cons]
          have hsz'' : sizeItems (w :: ws) ≤ f := by
            rw [sizeItems_cons, sizeItems_cons] at hsz
            rw [sizeItems_cons]
            have := size_pos v
            omega
          have hw := ihi w ws rest hsz''
          show (parseItems f (Json.encode w ++ encodeItems ws ++ ']' :: rest)).bind
              (fun q => some (v :: q.1, q.2)) = some (v :: w :: ws, rest)
          rw [List.append_assoc, hw]
          rfl
      · -- object members
        intro k v ms rest hsz
        have hszv : v.size ≤ f := by
          rw [sizeMembers_cons] at hsz
          have he2 : ((k, v) : String × Json).2.size = v.size := rfl
          omega
        have hro : restOk (encodeMembers ms ++ '\x7d' :: rest) := by
          cases ms with
          | nil =>
            rw [encodeMembers_nil]
            exact restOk_of_head_false (by decide) (by decide)
          | cons m ms' =>
            rw [encodeMembers_cons]
            exact restOk_of_head_false (by decide) (by decide)
        have hval := ihv v (encodeMembers ms ++ '\x7d' :: rest) hszv hro
        have hstr := parseStrAux_escape k.data
          (':' :: ' ' :: (Json.encode v ++ (encodeMembers ms ++ '\x7d' :: rest)))
        rw [encodeMember_eq]
        simp only [List.cons_append, List.append_assoc, List.singleton_append, List.nil_append]
        rw [parseMembers_quote]
        simp only [List.cons_append] at hstr
        rw [hstr, optionBind_some]
        show (parseVal f (Json.encode v ++ (encodeMembers ms ++ '\x7d' :: rest))).bind _
            = some ((k, v) :: ms, rest)
        rw [hval, optionBind_some]
        cases ms with
        | nil =>
          rw [encodeMembers_nil]
          rfl
        | cons m ms' =>
          obtain ⟨k2, v2⟩ := m
          rw [encodeMembers_cons]
          have hsz'' : sizeMembers ((k2, v2) :: ms') ≤ f := by
            rw [sizeMembers_cons, sizeMembers_cons] at hsz
            rw [sizeMembers_cons]
            have := size_pos v
            have he2 : ((k, v) : String × Json).2.size = v.size := rfl
            have he3 : ((k2, v2) : String × Json).2.size = v2.size := rfl
            omega
          have hm := ihm k2 v2 ms' rest hsz''
          simp only [List.cons_append, List.append_assoc, hm, optionBind_some, string_mk_data]

/-- The parser fuel `length + 1` always suffices: a value's size is at
most its encoding's length. -/
theorem size_le_encode_length : ∀ j : Json, j.size ≤ j.encode.length := by
  suffices h : ∀ (n : ℕ) (j : Json), sizeOf j ≤ n → j.size ≤ j.encode.length by
    exact fun j => h (sizeOf j) j le_rfl
  intro n
  induction n using Nat.strong_induction_on with
  | _ n ih =>
    intro j hj
    cases j with
    | null => rw [encode_null, Json.size.eq_def]; simp
    | bool b => cases b <;> simp only [encode_true, encode_false, Json.size.eq_def] <;> simp
    | int m =>
      rw [encode_int, Json.size.eq_def]
      obtain ⟨d, ds, hd, _⟩ := encodeInt_head m
      rw [hd]
      simp
    | dec m e =>
      rw [encode_dec, Json.size.eq_def]
      obtain ⟨d, ds, hd, _⟩ := encodeDec_head m e
      rw [hd]
      simp
    | str s =>
      rw [encode_str, Json.size.eq_def]
      simp
    | arr l =>
      have hitems : ∀ xs : List Json, (∀ x ∈ xs, sizeOf x < n) →
          sizeItems xs ≤ (encodeItems xs).length := by
        intro xs
        induction xs with
        | nil =>
          intro _
          rw [sizeItems.eq_def, encodeItems.eq_def]
          simp
        | cons w ws ihw =>
          intro hmem
          have hw : w.size ≤ w.encode.length :=
            ih (sizeOf w) (hmem w (by simp)) w le_rfl
          have hws := ihw fun x hx => hmem x (by simp [hx])
          rw [sizeItems_cons, encodeItems_cons]
          simp only [List.length_cons, List.length_append]
          omega
      cases l with
      | nil =>
        rw [encode_arr_nil, size_arr, sizeItems.eq_def]
        simp
      | cons x xs =>
        have hlt : ∀ y ∈ x :: xs, sizeOf y < n := by
          intro y hy
          have h1 := List.sizeOf_lt_of_mem hy
          have h2 : sizeOf (Json.arr (x :: xs)) ≤ n := hj
          simp only [Json.arr.sizeOf_spec] at h2
          omega
        have hx : x.size ≤ x.encode.length :=
          ih (sizeOf x) (hlt x (by simp)) x le_rfl
        have hxs : sizeItems xs ≤ (encodeItems xs).length :=
          hitems xs fun y hy => hlt y (by simp [hy])
        rw [encode_arr_cons, size_arr, sizeItems_cons]
        simp only [List.length_cons, List.length_append]
        omega
    | obj ms =>
      have hmembers : ∀ xs : List (String × Json), (∀ x ∈ xs, sizeOf x.2 < n) →
          sizeMembers xs ≤ (encodeMembers xs).length := by
        intro xs
        induction xs with
        | nil =>
          intro _
          rw [sizeMembers.eq_def, encodeMembers.eq_def]
          simp
        | cons w ws ihw =>
          intro hmem
          obtain ⟨kw, vw⟩ := w
          have hw : vw.size ≤ vw.encode.length :=
            ih (sizeOf vw) (hmem (kw, vw) (by simp)) vw le_rfl
          have hws := ihw fun x hx => hmem x (by simp [hx])
          rw [sizeMembers_cons, encodeMembers_cons, encodeMember_eq]
          simp only [List.length_cons, List.length_append]
          have he2 : ((kw, vw) : String × Json).2.size = vw.size := rfl
          omega
      cases ms with
      | nil =>
        rw [encode_obj_nil, size_obj, sizeMembers.eq_def]
        simp
      | cons m ms' =>
        have hlt : ∀ y ∈ m :: ms', sizeOf y.2 < n := by
          intro y hy
          have h1 := List.sizeOf_lt_of_mem hy
          have h2 : sizeOf (Json.obj (m :: ms')) ≤ n := hj
          simp only [Json.obj.sizeOf_spec] at h2
          obtain ⟨ky, vy⟩ := y
          have h3 : sizeOf vy < sizeOf ((ky, vy) : String × Json) := by
            simp
          simp only at h3 ⊢
          omega
        obtain ⟨k, v⟩ := m
        have hv : v.size ≤ v.encode.length :=
          ih (sizeOf v) (hlt (k, v) (by simp)) v le_rfl
        have hms : sizeMembers ms' ≤ (encodeMembers ms').length :=
          hmembers ms' fun y hy => hlt y (by simp [hy])
        rw [encode_obj_cons, size_obj, sizeMembers_cons, encodeMember_eq]
        simp only [List.length_cons, List.length_append]
        have he2 : ((k, v) : String × Json).2.size = v.size := rfl
        omega

/-- **C10**: `JsonCoder.decode (JsonCoder.encode x) = x` — encoding a
JSON value (in particular a record mapping) to its serialized text and
decoding it back is the identity, so the Source/Sink coder loses no
data. -/
theorem jsonCoder_round_trip (x : Json) :
    jsonCoderDecode (jsonCoderEncode x) = some x := by
  have hval := (parse_encode_master (x.encode.length + 1)).1 x []
    (le_trans (size_le_encode_length x) (by omega)) trivial
  rw [List.append_nil] at hval
  show (match parseVal (x.encode.length + 1) x.encode with
    | some (v, []) => some v
    | _ => none) = some x
  rw [hval]
